import Mathlib

/-!
Verification of the seo-redundant-link-cleaner core (src/app.js) against its
natural-language specification.

Strings are modelled as lists of characters (`Str`).  JavaScript regular
expression scans are modelled as fuel-indexed scanners; the fuel is always
instantiated with the length of the scanned string, and each scanner consumes
at least one character per unit of fuel, so the fuel never runs out on the
instances used.  This keeps every definition structurally recursive, hence
executable and kernel-reducible, so concrete witnesses evaluate by `decide`.

Character classes: JavaScript `trim`/`toLowerCase` act on full Unicode; the
model implements the ASCII fragment, which is all the analysed constructs
(schemes, markers, tag names, CSS classes) use.
-/

abbrev Str := List Char

-- The two brace characters, written via code points.
def lb : Char := '\x7b'

def rb : Char := '\x7d'

-- Prefix test: `leadsWith pat s` holds when `pat` is an initial segment of `s`.
def leadsWith : Str → Str → Bool
  | [], _ => true
  | _ :: _, [] => false
  | p :: pt, c :: ct => (p == c) && leadsWith pt ct

-- Contiguous-substring test.
def occursIn (pat : Str) : Str → Bool
  | [] => pat.isEmpty
  | c :: rest => leadsWith pat (c :: rest) || occursIn pat rest

-- ASCII lower-casing, modelling String.prototype.toLowerCase.
def lowerChar (c : Char) : Char :=
  if 65 ≤ c.toNat ∧ c.toNat ≤ 90 then Char.ofNat (c.toNat + 32) else c

def lowerStr (s : Str) : Str := s.map lowerChar

-- ASCII whitespace, modelling the characters String.prototype.trim removes.
def isSpaceChar (c : Char) : Bool :=
  c == ' ' || c == '\t' || c == '\n' || c == '\r' || c == '\x0b' || c == '\x0c'

def trimStr (s : Str) : Str :=
  ((s.dropWhile isSpaceChar).reverse.dropWhile isSpaceChar).reverse

-- Everything before the first occurrence of `stop`; the whole string when
-- `stop` does not occur.  Models `s.split(stop)[0]`.
def takeUntil (stop : Char) (s : Str) : Str := s.takeWhile (· != stop)

-- Decimal rendering of a natural number, as JavaScript template literals
-- render the placeholder index (`${idx}`).
def digitChar : Nat → Char
  | 0 => '0' | 1 => '1' | 2 => '2' | 3 => '3' | 4 => '4'
  | 5 => '5' | 6 => '6' | 7 => '7' | 8 => '8' | _ => '9'

def natToDigitsF : Nat → Nat → Str
  | 0, _ => []
  | fuel + 1, n =>
    if n < 10 then [digitChar n]
    else natToDigitsF fuel (n / 10) ++ [digitChar (n % 10)]

def natToDigits (n : Nat) : Str := natToDigitsF (n + 1) n

-- Decimal parsing, modelling `parseInt` on a string of digits.  (JavaScript
-- numbers lose precision beyond 2^53; the indices arising here are far
-- smaller, so exact parsing is faithful on every reachable input.)
def digitsToNat (ds : Str) : Nat := ds.foldl (fun a c => 10 * a + (c.toNat - 48)) 0

/-!
Template Guard (src/app.js lines 13-26).

`protectTemplateSyntax` replaces every match of the JavaScript regex
`/\{\{(?:[^}]|\}(?!\}))*\}\}/g` with the token `__SRLC_TPL_<idx>__`.
The regex's inner alternative accepts any character that does not start a
`\x7d\x7d` pair, so a match runs from a leftmost `\x7b\x7b` through the first
following `\x7d\x7d`; when no `\x7d\x7d` follows, the engine moves on by one
character.  `protScanF` is that scan; `splitFirstBB` locates the first
`\x7d\x7d` pair.
-/

def splitFirstBB : Str → Option (Str × Str)
  | [] => none
  | c :: rest =>
    if c = rb ∧ rest.head? = some rb then some ([], rest.tail)
    else (splitFirstBB rest).map fun p => (c :: p.1, p.2)

-- Scan result: `Sum.inl c` is a literal character, `Sum.inr m` a full regex
-- match (brace pair included).
def protScanF : Nat → Str → List (Char ⊕ Str)
  | 0, s => s.map Sum.inl
  | _ + 1, [] => []
  | fuel + 1, c :: rest =>
    if c = lb then
      match rest with
      | [] => [Sum.inl c]
      | c2 :: rest2 =>
        if c2 = lb then
          match splitFirstBB rest2 with
          | some (inner, rest') =>
            Sum.inr (lb :: lb :: (inner ++ [rb, rb])) :: protScanF fuel rest'
          | none => Sum.inl lb :: protScanF fuel (lb :: rest2)
        else Sum.inl c :: protScanF fuel rest
    else Sum.inl c :: protScanF fuel rest

-- The marker `__SRLC_TPL_` that every replacement token starts with.
def tplMark : Str := ['_', '_', 'S', 'R', 'L', 'C', '_', 'T', 'P', 'L', '_']

-- The token `__SRLC_TPL_<k>__` substituted for the k-th match.
def tplTokenChars (k : Nat) : Str := tplMark ++ natToDigits k ++ ['_', '_']

def buildGuarded : Nat → List (Char ⊕ Str) → Str
  | _, [] => []
  | k, Sum.inl c :: ps => c :: buildGuarded k ps
  | k, Sum.inr _ :: ps => tplTokenChars k ++ buildGuarded (k + 1) ps

def matchesOf (parts : List (Char ⊕ Str)) : List Str :=
  parts.filterMap fun p => match p with | Sum.inl _ => none | Sum.inr m => some m

-- protectTemplateSyntax(html) -> { html: guarded, placeholders }.
def protectTemplateSyntax (html : Str) : Str × List Str :=
  (buildGuarded 0 (protScanF html.length html),
   matchesOf (protScanF html.length html))

-- What String.replace substitutes when the replacer callback returns
-- `placeholders[i]` for an out-of-range index: the string "undefined".
def undefinedStr : Str := "undefined".toList

/-!
`restoreTemplateSyntax` replaces every match of `/__SRLC_TPL_(\d+)__/g` with
`placeholders[parseInt(idx)]`.  A match needs the marker, then a maximal
nonempty digit run, then two underscores (backtracking inside `\d+` cannot
help, since shortening the digit run only exposes more digits).  `tryToken`
decides a match at the current position; `restoreScanF` is the global scan.
-/

def tryToken (s : Str) : Option (Nat × Str) :=
  if leadsWith tplMark s then
    let ds := (s.drop 11).takeWhile Char.isDigit
    if ds.isEmpty then none
    else if leadsWith ['_', '_'] ((s.drop 11).drop ds.length) then
      some (digitsToNat ds, ((s.drop 11).drop ds.length).drop 2)
    else none
  else none

def restoreScanF (ps : List Str) : Nat → Str → Str
  | 0, s => s
  | _ + 1, [] => []
  | fuel + 1, c :: rest =>
    match tryToken (c :: rest) with
    | some (i, rest') => ps.getD i undefinedStr ++ restoreScanF ps fuel rest'
    | none => c :: restoreScanF ps fuel rest

-- restoreTemplateSyntax(html, placeholders); the early return when the
-- placeholder list is empty is the source's `placeholders.length === 0` guard.
def restoreTemplateSyntax (html : Str) (ps : List Str) : Str :=
  if ps.isEmpty then html else restoreScanF ps html.length html

/-!
Proof-side descriptions of a scan result: `partsText` flattens it back to the
input, `LitSafe` records that the restore scan finds no token at any literal
position of the guarded string, `PsOk` records that the placeholder list holds
the k-th match at index k.
-/

def partsText : List (Char ⊕ Str) → Str
  | [] => []
  | Sum.inl c :: ps => c :: partsText ps
  | Sum.inr m :: ps => m ++ partsText ps

def LitSafe : Nat → List (Char ⊕ Str) → Prop
  | _, [] => True
  | k, Sum.inl c :: rest => tryToken (c :: buildGuarded k rest) = none ∧ LitSafe k rest
  | k, Sum.inr _ :: rest => LitSafe (k + 1) rest

def PsOk (ps : List Str) : Nat → List (Char ⊕ Str) → Prop
  | _, [] => True
  | k, Sum.inl _ :: rest => PsOk ps k rest
  | k, Sum.inr m :: rest => ps.getD k undefinedStr = m ∧ PsOk ps (k + 1) rest

-- Concrete inputs for the round-trip counterexample and witness.
def tplCxInput : Str := (lb :: lb :: 'a' :: rb :: rb :: []) ++ "__SRLC_TPL_0__".toList

def tplWitInput : Str :=
  "Hello ".toList ++ (lb :: lb :: "first name".toList ++ [rb, rb]) ++ " and ".toList
    ++ (lb :: lb :: 'b' :: rb :: rb :: []) ++ "!".toList

/-!
URL Normalizer (src/app.js lines 44-63).

`normalizeUrl` is parameterised by `parse`, the model of the platform URL
constructor `new URL(href, 'https://placeholder.com')`: `parse href = some u`
models successful parsing with hostname/pathname `u`, and `parse href = none`
models the constructor throwing, which the source catches.  `urlParse` is the
concrete instance used on closed inputs: for an absolute-looking string it
takes the authority up to the first '/', '?' or '#' (lower-cased, as browsers
canonicalise hostnames) and the path up to the first '?' or '#', defaulting to
"/"; it covers the scheme://host/path shapes exercised here (no userinfo,
port or percent-encoding corner cases).
-/

structure UrlParts where
  hostname : Str
  pathname : Str
deriving DecidableEq, Repr

def jsSchemeStr : Str := "javascript:".toList

def mailtoStr : Str := "mailto:".toList

def telStr : Str := "tel:".toList

def httpStr : Str := "http://".toList

def httpsStr : Str := "https://".toList

def slashSlashStr : Str := ['/', '/']

-- The source's absolute-URL test: href.startsWith('http://') ||
-- href.startsWith('https://') || href.startsWith('//').
def absLooking (href : Str) : Bool :=
  leadsWith httpStr href || leadsWith httpsStr href || leadsWith slashSlashStr href

def urlAfterScheme (href : Str) : Option Str :=
  if leadsWith httpsStr href then some (href.drop 8)
  else if leadsWith httpStr href then some (href.drop 7)
  else if leadsWith slashSlashStr href then some (href.drop 2)
  else none

def urlParse (href : Str) : Option UrlParts :=
  match urlAfterScheme href with
  | none => none
  | some rest =>
    let host := rest.takeWhile fun c => c != '/' && c != '?' && c != '#'
    if host.isEmpty then none
    else
      let after := rest.drop host.length
      let path := after.takeWhile fun c => c != '?' && c != '#'
      some ⟨lowerStr host, if path.isEmpty then ['/'] else path⟩

-- The source's early-return test: empty/whitespace-only href, bare '#', or a
-- javascript:/mailto:/tel: scheme.
def nonNavigational (href : Str) : Bool :=
  href.isEmpty || (href == ['#']) || leadsWith jsSchemeStr href
    || leadsWith mailtoStr href || leadsWith telStr href

-- The source's `if (path.length > 1 && path.endsWith('/')) path = path.slice(0, -1)`.
def stripTrailSlash (path : Str) : Str :=
  if 1 < path.length ∧ path.getLast? = some '/' then path.dropLast else path

def normalizeUrl (parse : Str → Option UrlParts) (href0 : Str) : Option Str :=
  if href0.isEmpty then none
  else
    let href := trimStr href0
    if nonNavigational href then none
    else if absLooking href then
      match parse href with
      | some u =>
        let path := stripTrailSlash (lowerStr u.pathname)
        some (if path.isEmpty then lowerStr href else path)
      | none => some (takeUntil '#' (takeUntil '?' (lowerStr href)))
    else
      let path := stripTrailSlash (lowerStr (takeUntil '#' (takeUntil '?' href)))
      some (if path.isEmpty then lowerStr href else path)

-- The concrete normalizer, with the platform URL parser instantiated.
def normalizeUrlJs (href : Str) : Option Str := normalizeUrl urlParse href

/-!
Link inventory and Decision Engine (src/app.js lines 176-190, 245-279, 797-812).

A `Link` carries the fields built at analysis time; `keep` is the only
mutable one.  `Group` aggregates the Links sharing a normalized href.  The
in-place mutations of the source are modelled as functions returning the
updated records.
-/

structure Link where
  id : Nat
  rawIndex : Nat
  href : Str
  normalizedHref : Str
  anchorText : Str
  isImageLink : Bool
  isCtaLink : Bool
  isInHeading : Bool
  isExternal : Bool
  parentTag : Str
  context : Str
  keep : Bool
  rel : Str
deriving DecidableEq, Repr

-- The source's Group record; named LinkGroup because Lean's library already
-- owns the name Group.
structure LinkGroup where
  normalizedHref : Str
  originalHref : Str
  links : List Link
  imageCount : Nat
  textCount : Nat
  ctaCount : Nat
  inHeadingCount : Nat
deriving DecidableEq, Repr

def blankLink : Link :=
  ⟨0, 0, [], [], [], false, false, false, false, [], [], true, []⟩

-- Non-image, non-CTA occurrences, the source's `textLinks` filter.
def isTextLink (l : Link) : Bool := !l.isImageLink && !l.isCtaLink

def textLinksOf (g : LinkGroup) : List Link := g.links.filter isTextLink

def setKeep (b : Bool) (l : Link) : Link := { l with keep := b }

-- hasDifferentAnchors (lines 245-249): fewer than two links gives false,
-- otherwise the Set of lower-cased trimmed anchor texts has size above one.
def hasDifferentAnchors (textLinks : List Link) : Bool :=
  if textLinks.length < 2 then false
  else decide (1 < ((textLinks.map fun l => trimStr (lowerStr l.anchorText)).dedup).length)

-- The else-branch loop of applyAutoStrip: image/CTA links are kept, the
-- first text link is kept and sets the flag, later text links are stripped.
def stripAfterFirst : Bool → List Link → List Link
  | _, [] => []
  | firstTextKept, l :: rest =>
    if l.isImageLink || l.isCtaLink then setKeep true l :: stripAfterFirst firstTextKept rest
    else if firstTextKept then setKeep false l :: stripAfterFirst firstTextKept rest
    else setKeep true l :: stripAfterFirst true rest

def applyAutoStripGroup (g : LinkGroup) : LinkGroup :=
  let textLinks := textLinksOf g
  if textLinks.length = 2 ∧ hasDifferentAnchors textLinks = true then
    { g with links := g.links.map (setKeep true) }
  else
    { g with links := stripAfterFirst false g.links }

-- applyAutoStrip iterates over Object.values(state.groups); the group map is
-- modelled as the insertion-ordered list of groups.
def applyAutoStrip (groups : List LinkGroup) : List LinkGroup :=
  groups.map applyAutoStripGroup

-- toggleLink (lines 797-812): find the link by id; return unchanged when
-- absent or image/CTA, otherwise flip that link's keep flag in place.
def flipKeepFirst (id : Nat) : List Link → List Link
  | [] => []
  | l :: rest =>
    if l.id = id then { l with keep := !l.keep } :: rest
    else l :: flipKeepFirst id rest

def toggleLink (links : List Link) (id : Nat) : List Link :=
  match links.find? fun l => l.id == id with
  | none => links
  | some l => if l.isImageLink || l.isCtaLink then links else flipKeepFirst id links

-- Concrete inventories for witnesses.
def egImgLink : Link :=
  ⟨0, 0, "/p".toList, "/p".toList, "[image]".toList, true, false, false, false,
    "p".toList, [], false, []⟩

def egTextLink (i : Nat) (txt : Str) : Link :=
  ⟨i, i, "/p".toList, "/p".toList, txt, false, false, false, false,
    "p".toList, [], true, []⟩

def egGroupA : LinkGroup :=
  ⟨"/p".toList, "/p".toList,
    [egImgLink, egTextLink 1 "Buy the Widget".toList, egTextLink 2 "Buy the Widget".toList],
    1, 2, 0, 0⟩


/-!
Document model (the browser DOM the source operates on).

The source parses the guarded HTML string into a detached container element
(container.innerHTML = protectedHtml) and works on that tree; the template
guard acts on the HTML string before parsing and after serialisation, so the
Analyzer and Regenerator below take the parsed tree (the container's child
list) as input.  Tag names are lower-case strings; attributes are an ordered
name/value list and getAttribute returns the first binding, matching how a
parser keeps the first of duplicate attributes.  querySelectorAll order is
document (pre)order, modelled by the element-before-descendants traversal.
-/

inductive Node where
  | text (s : Str)
  | elem (tag : Str) (attrs : List (Str × Str)) (children : List Node)

def getAttr (attrs : List (Str × Str)) (name : Str) : Option Str :=
  match attrs.find? fun p => p.1 == name with
  | none => none
  | some p => some p.2

def aTag : Str := "a".toList

def imgTag : Str := "img".toList

def paraTag : Str := "p".toList

def hrefAttr : Str := "href".toList

def classAttr : Str := "class".toList

def relAttr : Str := "rel".toList

def targetAttr : Str := "target".toList

def selfVal : Str := "_self".toList

def removeMarkAttr : Str := "data-srlc-remove".toList

mutual
def textContent : Node → Str
  | .text s => s
  | .elem _ _ cs => textContentL cs
def textContentL : List Node → Str
  | [] => []
  | c :: cs => textContent c ++ textContentL cs
end

-- Whether a node is an img element or contains one (querySelector of img
-- on a node searches descendants only, so callers pass the children list).
mutual
def nodeHasImg : Node → Bool
  | .text _ => false
  | .elem t _ cs => t == imgTag || nodeHasImgL cs
def nodeHasImgL : List Node → Bool
  | [] => false
  | c :: cs => nodeHasImg c || nodeHasImgL cs
end

/-!
Link Classifier (src/app.js lines 66-143).
-/

-- The childNodes fold of isImageLink: direct text nodes contribute their
-- trimmed text, non-img child elements that contain no img contribute their
-- trimmed textContent.
def childOtherText : List Node → Str
  | [] => []
  | .text s :: cs => trimStr s ++ childOtherText cs
  | .elem t _ ccs :: cs =>
    (if !(t == imgTag) && !nodeHasImgL ccs then trimStr (textContentL ccs) else [])
      ++ childOtherText cs

-- isImageLink on an anchor's children: at least one img descendant and no
-- other text-bearing content.
def isImageLink (cs : List Node) : Bool :=
  nodeHasImgL cs && (childOtherText cs).isEmpty

-- JavaScript word characters, for the regex word boundary.
def isWordChar (c : Char) : Bool :=
  (97 ≤ c.toNat && c.toNat ≤ 122) || (65 ≤ c.toNat && c.toNat ≤ 90)
    || (48 ≤ c.toNat && c.toNat ≤ 57) || c == '_'

def boundaryOk : Option Char → Bool
  | none => true
  | some c => !isWordChar c

-- Occurrence of kw in s with word boundaries on both sides, modelling a
-- test of a regex of the shape word-boundary, keyword, word-boundary (all
-- keywords used begin and end with word characters).
def occursAsWordAux (kw : Str) (before : Option Char) : Str → Bool
  | [] => false
  | c :: rest =>
    (leadsWith kw (c :: rest) && boundaryOk before
        && boundaryOk (((c :: rest).drop kw.length).head?))
      || occursAsWordAux kw (some c) rest

def occursAsWord (kw s : Str) : Bool := occursAsWordAux kw none s

-- Anchored phrase test: keyword at the start followed by a word boundary.
def startsWithPhrase (kw txt : Str) : Bool :=
  leadsWith kw txt && boundaryOk ((txt.drop kw.length).head?)

def ctaClassKeywords : List Str :=
  ["btn", "button", "cta", "shop-now", "buy-now", "add-to-cart"].map String.toList

def ctaPhraseKeywords : List Str :=
  ["shop", "buy", "order", "add to cart", "get it", "check price", "see price",
    "view deal", "view product", "learn more"].map String.toList

def ctaParentKeywords : List Str :=
  ["btn", "button", "cta", "shop", "call-to-action"].map String.toList

-- isCtaLink over the anchor's class attribute, textContent, and the
-- immediate parent element's class attribute.
def isCtaLink (clsRaw txtRaw parentClsRaw : Str) : Bool :=
  let cls := lowerStr clsRaw
  let txt := trimStr (lowerStr txtRaw)
  if ctaClassKeywords.any fun kw => occursAsWord kw cls then true
  else if ctaPhraseKeywords.any fun kw => startsWithPhrase kw txt then true
  else if ctaParentKeywords.any fun kw => occursAsWord kw (lowerStr parentClsRaw) then true
  else false

-- isExternalLink: false without a configured domain, for root-relative or
-- fragment hrefs, and on parse failure; otherwise true when the hostname
-- does not contain the lower-cased domain as a substring.
def isExternalLink (parse : Str → Option UrlParts) (href : Str) (domain : Str) : Bool :=
  if domain.isEmpty then false
  else if href.isEmpty || leadsWith ['/'] href || leadsWith ['#'] href then false
  else
    match parse href with
    | some u => !occursIn (lowerStr domain) u.hostname
    | none => false

def headingTags : List Str := ["h1", "h2", "h3", "h4", "h5", "h6"].map String.toList

def isHeadingTag (t : Str) : Bool := headingTags.contains t

def parentTagAllowList : List Str :=
  ["p", "li", "td", "th", "h1", "h2", "h3", "h4", "h5", "h6", "blockquote",
    "figcaption", "dd", "dt"].map String.toList

-- String.prototype.indexOf; an empty needle is found at position 0.
def firstIdxOfSub (needle : Str) : Str → Option Nat
  | [] => if needle.isEmpty then some 0 else none
  | c :: rest =>
    if leadsWith needle (c :: rest) then some 0
    else (firstIdxOfSub needle rest).map (· + 1)

-- getContext over the parent's textContent and the anchor's own textContent.
def getContext (parentText linkText : Str) : Str :=
  match firstIdxOfSub linkText parentText with
  | none => parentText.take 80
  | some idx =>
    let start := idx - 30
    let stop := min parentText.length (idx + linkText.length + 30)
    let ctx := trimStr ((parentText.take stop).drop start)
    let ctx1 := if 0 < start then "...".toList ++ ctx else ctx
    if stop < parentText.length then ctx1 ++ "...".toList else ctx1

/-!
Anchor enumeration (src/app.js line 152, container.querySelectorAll with the
selector a[href]).  Each anchor is collected in document order together with
the ancestor-derived context its classification needs: whether a heading
encloses it, the nearest allow-listed ancestor tag (getParentTag), and the
immediate parent's class and textContent.
-/

structure AView where
  attrs : List (Str × Str)
  children : List Node
  inHeading : Bool
  parentTag : Str
  parentClass : Str
  parentText : Str

def classOf (attrs : List (Str × Str)) : Str := (getAttr attrs classAttr).getD []

mutual
def collectViews (inH : Bool) (pTag pCls pTxt : Str) : Node → List AView
  | .text _ => []
  | .elem tag attrs cs =>
    (if tag == aTag && (getAttr attrs hrefAttr).isSome then
        [⟨attrs, cs, inH, pTag, pCls, pTxt⟩]
      else [])
      ++ collectViewsL (inH || isHeadingTag tag)
          (if parentTagAllowList.contains tag then tag else pTag)
          (classOf attrs) (textContentL cs) cs
def collectViewsL (inH : Bool) (pTag pCls pTxt : Str) : List Node → List AView
  | [] => []
  | c :: cs => collectViews inH pTag pCls pTxt c ++ collectViewsL inH pTag pCls pTxt cs
end

-- The detached container is a plain div with no class; anchors directly in
-- it see parentTag div (the getParentTag default) and the container's text.
def anchorViews (doc : List Node) : List AView :=
  collectViewsL false ("div".toList) [] (textContentL doc) doc

mutual
def countAnchorsHref : Node → Nat
  | .text _ => 0
  | .elem tag attrs cs =>
    (if tag == aTag && (getAttr attrs hrefAttr).isSome then 1 else 0) + countAnchorsHrefL cs
def countAnchorsHrefL : List Node → Nat
  | [] => 0
  | c :: cs => countAnchorsHref c + countAnchorsHrefL cs
end

-- container.querySelectorAll of p elements, in document order.
mutual
def paraNodes : Node → List Node
  | .text _ => []
  | .elem tag attrs cs =>
    (if tag == paraTag then [Node.elem tag attrs cs] else []) ++ paraNodesL cs
def paraNodesL : List Node → List Node
  | [] => []
  | c :: cs => paraNodes c ++ paraNodesL cs
end

/-!
Analyzer (src/app.js lines 146-242).
-/

structure Warning where
  type : Str
  message : Str
deriving DecidableEq, Repr

structure Stats where
  totalLinks : Nat
  uniqueUrls : Nat
  imageLinks : Nat
  ctaLinks : Nat
  textLinks : Nat
  externalLinks : Nat
deriving DecidableEq, Repr

structure Analysis where
  links : List Link
  groups : List LinkGroup
  warnings : List Warning
  stats : Stats

def brokenType : Str := "broken".toList

def imageOnlyType : Str := "image-only".toList

def headingType : Str := "heading".toList

def densityType : Str := "density".toList

def brokenMessage (href txt : Str) : Str :=
  "Broken/invalid link: href=\"".toList ++ href ++ "\" — \"".toList
    ++ (trimStr txt).take 40 ++ "\"".toList

def imageOnlyMessage (url : Str) (count : Nat) : Str :=
  "\"".toList ++ url ++ "\" only appears as image links (".toList ++ natToDigits count
    ++ "). Consider adding a text link for SEO.".toList

def headingMessage (url : Str) (count : Nat) : Str :=
  "\"".toList ++ url ++ "\" has ".toList ++ natToDigits count
    ++ " link(s) inside heading tags — consider removing.".toList

def densityMessage (count : Nat) (ptext : Str) : Str :=
  "High link density (".toList ++ natToDigits count ++ " links) in paragraph: \"".toList
    ++ trimStr (ptext.take 60) ++ "...\"".toList

def newGroup (nrm href : Str) : LinkGroup := ⟨nrm, href, [], 0, 0, 0, 0⟩

def bumpGroup (g : LinkGroup) (link : Link) (img cta heading : Bool) : LinkGroup :=
  { g with
    links := g.links ++ [link]
    imageCount := g.imageCount + (if img then 1 else 0)
    ctaCount := g.ctaCount + (if !img && cta then 1 else 0)
    textCount := g.textCount + (if !img && !cta then 1 else 0)
    inHeadingCount := g.inHeadingCount + (if heading then 1 else 0) }

-- The groups[normalized] upsert; the group map is the insertion-ordered list.
def upsertGroup (nrm href : Str) (link : Link) (img cta heading : Bool) :
    List LinkGroup → List LinkGroup
  | [] => [bumpGroup (newGroup nrm href) link img cta heading]
  | g :: gs =>
    if g.normalizedHref == nrm then bumpGroup g link img cta heading :: gs
    else g :: upsertGroup nrm href link img cta heading gs

-- Pieces of the allAnchors.forEach body (src/app.js lines 157-211).
def hrefOfView (v : AView) : Str := (getAttr v.attrs hrefAttr).getD []

def ctaOfView (v : AView) : Bool :=
  !isImageLink v.children
    && isCtaLink (classOf v.attrs) (textContentL v.children) v.parentClass

def anchorTextOfView (v : AView) : Str :=
  if isImageLink v.children then "[image]".toList
  else if (trimStr (textContentL v.children)).isEmpty then "[empty]".toList
  else trimStr (textContentL v.children)

def mkScanLink (parse : Str → Option UrlParts) (domain : Str) (v : AView)
    (rawIndex idNum : Nat) (nrm : Str) : Link :=
  ⟨idNum, rawIndex, hrefOfView v, nrm, anchorTextOfView v, isImageLink v.children,
    ctaOfView v, v.inHeading, isExternalLink parse (hrefOfView v) domain, v.parentTag,
    getContext v.parentText (textContentL v.children), true,
    (getAttr v.attrs relAttr).getD []⟩

def brokenWarningOf (v : AView) : Warning :=
  ⟨brokenType, brokenMessage (hrefOfView v) (textContentL v.children)⟩

-- The allAnchors.forEach loop: rawIndex counts every anchor, ids count the
-- built links; anchors whose href normalizes to null never become Links and
-- add a broken warning when the raw href is nonempty and not a bare '#'.
def scanAnchors (parse : Str → Option UrlParts) (domain : Str) :
    List AView → Nat → List Link → List Warning → List LinkGroup →
    List Link × List Warning × List LinkGroup
  | [], _, ls, ws, gs => (ls, ws, gs)
  | v :: vs, rawIndex, ls, ws, gs =>
    match normalizeUrl parse (hrefOfView v) with
    | none =>
      scanAnchors parse domain vs (rawIndex + 1) ls
        (if !(hrefOfView v).isEmpty && !(hrefOfView v == ['#'])
          then ws ++ [brokenWarningOf v] else ws) gs
    | some nrm =>
      let link := mkScanLink parse domain v rawIndex ls.length nrm
      scanAnchors parse domain vs (rawIndex + 1) (ls ++ [link]) ws
        (upsertGroup nrm (hrefOfView v) link (isImageLink v.children) (ctaOfView v)
          v.inHeading gs)

def groupWarnings (g : LinkGroup) : List Warning :=
  (if g.textCount = 0 ∧ g.ctaCount = 0 ∧ 0 < g.imageCount
      then [⟨imageOnlyType, imageOnlyMessage g.normalizedHref g.imageCount⟩] else [])
    ++ (if 0 < g.inHeadingCount
      then [⟨headingType, headingMessage g.normalizedHref g.inHeadingCount⟩] else [])

def densityWarningOf (p : Node) : Option Warning :=
  if 5 ≤ countAnchorsHref p
    then some ⟨densityType, densityMessage (countAnchorsHref p) (textContent p)⟩ else none

def densityWarnings (doc : List Node) : List Warning :=
  (paraNodesL doc).filterMap densityWarningOf

-- analyzeHtml(html) with the html already guarded and parsed into doc;
-- domain is the trimmed site-domain field.
def analyzeHtml (parse : Str → Option UrlParts) (domain : Str) (doc : List Node) : Analysis :=
  let res := scanAnchors parse domain (anchorViews doc) 0 [] [] []
  let ls := res.1
  let gs := res.2.2
  let ws := res.2.1 ++ gs.flatMap groupWarnings ++ densityWarnings doc
  let imageLinks := (ls.filter fun l => l.isImageLink).length
  let ctaLinks := (ls.filter fun l => l.isCtaLink).length
  ⟨ls, gs, ws,
    ⟨ls.length, gs.length, imageLinks, ctaLinks, ls.length - imageLinks - ctaLinks,
      (ls.filter fun l => l.isExternal).length⟩⟩

-- An anchor whose href fails normalization yet is nonempty and not a bare
-- '#': exactly the anchors the scan reports as broken.
def invalidNonTrivial (parse : Str → Option UrlParts) (v : AView) : Bool :=
  let href := (getAttr v.attrs hrefAttr).getD []
  (normalizeUrl parse href).isNone && !href.isEmpty && !(href == ['#'])

def jsVoidHref : Str := "javascript:void(0)".toList

-- Concrete documents for the C5 and C6 counterexamples.
def c5Doc : List Node :=
  [Node.elem aTag [(hrefAttr, jsVoidHref)] [Node.text "click".toList]]

def c6Doc : List Node :=
  [Node.elem paraTag []
    (List.replicate 5 (Node.elem aTag [(hrefAttr, ['#'])] [Node.text "x".toList]))]


/-!
Html Regenerator (src/app.js lines 282-325).

generateCleanHtml re-guards the original HTML, re-parses it, re-walks the
anchors bearing an href in document order pairing the Nth anchor whose href
normalizes with the Nth Link (processContainer), marks the anchors of
non-kept Links with data-srlc-remove, unwraps every marked element (splicing
its children in place), strips target="_self" from every remaining anchor
while counting the removals (state.targetSelfCount), and finally restores the
template placeholders in the serialised string.  The model covers the tree
transformation; serialisation and placeholder restoration are string-level
steps outside the tree.
-/

-- The attribute/index step of the processContainer callback pairing: an
-- anchor with an href that normalizes consumes the next Link (while the
-- index is in range); the callback marks it when that Link's keep is false.
def markAttrsStep (parse : Str → Option UrlParts) (links : List Link) (tag : Str)
    (attrs : List (Str × Str)) (i : Nat) : List (Str × Str) × Nat :=
  if tag == aTag && (getAttr attrs hrefAttr).isSome then
    if (normalizeUrl parse ((getAttr attrs hrefAttr).getD [])).isSome then
      if i < links.length then
        (if (links.getD i blankLink).keep then attrs
          else attrs ++ [(removeMarkAttr, "true".toList)], i + 1)
      else (attrs, i)
    else (attrs, i)
  else (attrs, i)

mutual
def markWalk (parse : Str → Option UrlParts) (links : List Link) :
    Node → Nat → Node × Nat
  | .text s, i => (.text s, i)
  | .elem tag attrs cs, i =>
    let pr := markAttrsStep parse links tag attrs i
    let prc := markWalkL parse links cs pr.2
    (.elem tag pr.1 prc.1, prc.2)
def markWalkL (parse : Str → Option UrlParts) (links : List Link) :
    List Node → Nat → List Node × Nat
  | [], i => ([], i)
  | c :: cs, i =>
    let p1 := markWalk parse links c i
    let p2 := markWalkL parse links cs p1.2
    (p1.1 :: p2.1, p2.2)
end

-- container.querySelectorAll('[data-srlc-remove]').forEach(unwrap): every
-- element carrying the mark is replaced by its (already processed) children.
mutual
def unwrapMarked : Node → List Node
  | .text s => [.text s]
  | .elem tag attrs cs =>
    let cs' := unwrapMarkedL cs
    if (getAttr attrs removeMarkAttr).isSome then cs'
    else [.elem tag attrs cs']
def unwrapMarkedL : List Node → List Node
  | [] => []
  | c :: cs => unwrapMarked c ++ unwrapMarkedL cs
end

def removeAttr (attrs : List (Str × Str)) (name : Str) : List (Str × Str) :=
  attrs.filter fun p => !(p.1 == name)

-- The selector a[target="_self"].
def isTargetSelfAnchor (tag : Str) (attrs : List (Str × Str)) : Bool :=
  tag == aTag && (getAttr attrs targetAttr == some selfVal)

mutual
def stripTargetSelf : Node → Node × Nat
  | .text s => (.text s, 0)
  | .elem tag attrs cs =>
    let pr := stripTargetSelfL cs
    if isTargetSelfAnchor tag attrs then
      (.elem tag (removeAttr attrs targetAttr) pr.1, pr.2 + 1)
    else (.elem tag attrs pr.1, pr.2)
def stripTargetSelfL : List Node → List Node × Nat
  | [] => ([], 0)
  | c :: cs =>
    let p1 := stripTargetSelf c
    let p2 := stripTargetSelfL cs
    (p1.1 :: p2.1, p1.2 + p2.2)
end

-- generateCleanHtml on the parsed original, returning the cleaned tree and
-- the target="_self" removal count stored for the changes report.
def generateCleanHtml (parse : Str → Option UrlParts) (links : List Link)
    (doc : List Node) : List Node × Nat :=
  let marked := (markWalkL parse links doc 0).1
  let unwrapped := unwrapMarkedL marked
  let pr := stripTargetSelfL unwrapped
  (pr.1, pr.2)

-- Counting the anchors the selector a[target="_self"] matches.
mutual
def countTargetSelf : Node → Nat
  | .text _ => 0
  | .elem tag attrs cs =>
    (if isTargetSelfAnchor tag attrs then 1 else 0) + countTargetSelfL cs
def countTargetSelfL : List Node → Nat
  | [] => 0
  | c :: cs => countTargetSelf c + countTargetSelfL cs
end

-- Whether any element of the tree already carries the removal mark (a real
-- article never does; the attribute is internal to the regenerator).
mutual
def hasRemoveMark : Node → Bool
  | .text _ => false
  | .elem _ attrs cs => (getAttr attrs removeMarkAttr).isSome || hasRemoveMarkL cs
def hasRemoveMarkL : List Node → Bool
  | [] => false
  | c :: cs => hasRemoveMark c || hasRemoveMarkL cs
end

-- END OF DEFINITIONS; theorems follow.

-- THEOREMS

theorem leadsWith_append_self (p t : Str) : leadsWith p (p ++ t) = true := by
  induction p with
  | nil => rfl
  | cons c ct ih => simp [leadsWith, ih]

theorem leadsWith_iff (p s : Str) : leadsWith p s = true ↔ ∃ t, s = p ++ t := by
  constructor
  · induction p generalizing s with
    | nil => intro _; exact ⟨s, rfl⟩
    | cons c ct ih =>
      intro h
      cases s with
      | nil => simp [leadsWith] at h
      | cons d dt =>
        rw [leadsWith, Bool.and_eq_true, beq_iff_eq] at h
        obtain ⟨rfl, h2⟩ := h
        obtain ⟨t, rfl⟩ := ih dt h2
        exact ⟨t, rfl⟩
  · rintro ⟨t, rfl⟩
    exact leadsWith_append_self p t

theorem leadsWith_length_le (p s : Str) (h : leadsWith p s = true) : p.length ≤ s.length := by
  obtain ⟨t, rfl⟩ := (leadsWith_iff p s).mp h
  simp

theorem leadsWith_nil_right (p : Str) (h : leadsWith p [] = true) : p = [] := by
  cases p with
  | nil => rfl
  | cons c ct => simp [leadsWith] at h

theorem leadsWith_cons_iff (p pt : Char) (ps : Str) (s : Str) :
    leadsWith (p :: ps) (pt :: s) = true ↔ p = pt ∧ leadsWith ps s = true := by
  rw [leadsWith, Bool.and_eq_true, beq_iff_eq]

-- If `pat` heads an appended string but is no longer than the first part,
-- it already heads the first part.
theorem leadsWith_append_of_le (pat a b : Str) (h : leadsWith pat (a ++ b) = true)
    (hle : pat.length ≤ a.length) : leadsWith pat a = true := by
  induction pat generalizing a with
  | nil => rfl
  | cons p pt ih =>
    cases a with
    | nil => simp at hle
    | cons c ct =>
      rw [List.cons_append] at h
      rw [leadsWith_cons_iff] at h ⊢
      exact ⟨h.1, ih ct h.2 (by simpa using hle)⟩

theorem leadsWith_eq_take (pat s : Str) (h : leadsWith pat s = true) :
    pat = s.take pat.length := by
  obtain ⟨t, rfl⟩ := (leadsWith_iff pat s).mp h
  simp [List.take_append]

theorem occursIn_cons_of (pat : Str) (c : Char) (s : Str) (h : occursIn pat s = true) :
    occursIn pat (c :: s) = true := by
  rw [occursIn, Bool.or_eq_true]
  exact Or.inr h

theorem occursIn_append_right (pat a b : Str) (h : occursIn pat b = true) :
    occursIn pat (a ++ b) = true := by
  induction a with
  | nil => simpa using h
  | cons c ct ih => exact occursIn_cons_of pat c (ct ++ b) ih

theorem occursIn_of_leadsWith (pat s : Str) (h : leadsWith pat s = true) :
    occursIn pat s = true := by
  cases s with
  | nil => rw [occursIn, List.isEmpty_iff, leadsWith_nil_right pat h]
  | cons c ct =>
    rw [occursIn, Bool.or_eq_true]
    exact Or.inl h

-- Contrapositive forms used by the scan lemmas.
theorem not_occursIn_suffix (pat a b : Str) (h : occursIn pat (a ++ b) = false) :
    occursIn pat b = false := by
  by_contra hb
  rw [occursIn_append_right pat a b (by revert hb; cases occursIn pat b <;> simp)] at h
  simp at h

theorem not_occursIn_leadsWith (pat s : Str) (h : occursIn pat s = false) :
    leadsWith pat s = false := by
  by_contra hb
  rw [occursIn_of_leadsWith pat s (by revert hb; cases leadsWith pat s <;> simp)] at h
  simp at h

theorem splitFirstBB_spec (s : Str) :
    ∀ a b, splitFirstBB s = some (a, b) → s = a ++ rb :: rb :: b := by
  induction s with
  | nil => intro a b h; simp [splitFirstBB] at h
  | cons c rest ih =>
    intro a b h
    rw [splitFirstBB] at h
    split at h
    · rename_i hc
      obtain ⟨hc1, hc2⟩ := hc
      simp only [Option.some.injEq, Prod.mk.injEq] at h
      obtain ⟨ha, hb⟩ := h
      subst ha hc1
      cases rest with
      | nil => simp at hc2
      | cons d t =>
        simp only [List.head?_cons, Option.some.injEq] at hc2
        subst hc2
        simp only [List.tail_cons] at hb
        subst hb
        simp
    · rw [Option.map_eq_some'] at h
      obtain ⟨⟨x, y⟩, hp, he⟩ := h
      have hs := ih x y hp
      simp only [Prod.mk.injEq] at he
      obtain ⟨h1, h2⟩ := he
      subst h2
      rw [hs, ← h1]
      simp

theorem natToDigitsF_congr :
    ∀ fuel fuel' n, n < fuel → n < fuel' → natToDigitsF fuel n = natToDigitsF fuel' n := by
  intro fuel
  induction fuel with
  | zero => intro _ n h; omega
  | succ f ih =>
    intro fuel' n h h'
    cases fuel' with
    | zero => omega
    | succ f' =>
      rw [natToDigitsF, natToDigitsF]
      by_cases h10 : n < 10
      · simp [h10]
      · simp only [h10, if_false]
        have hd : n / 10 < n := Nat.div_lt_self (by omega) (by omega)
        rw [ih f' (n / 10) (by omega) (by omega)]

theorem natToDigits_unfold (n : Nat) :
    natToDigits n = if n < 10 then [digitChar n] else natToDigits (n / 10) ++ [digitChar (n % 10)] := by
  rw [natToDigits, natToDigitsF]
  by_cases h10 : n < 10
  · simp [h10]
  · simp only [h10, if_false]
    rw [natToDigitsF_congr n (n / 10 + 1) (n / 10)
      (Nat.div_lt_self (by omega) (by omega)) (Nat.lt_succ_self _)]
    rfl

theorem digitsToNat_append (a : Str) (c : Char) :
    digitsToNat (a ++ [c]) = 10 * digitsToNat a + (c.toNat - 48) := by
  simp [digitsToNat, List.foldl_append]

theorem digitsToNat_natToDigits (n : Nat) : digitsToNat (natToDigits n) = n := by
  induction n using Nat.strong_induction_on with
  | _ n ih =>
    rw [natToDigits_unfold]
    split
    · rename_i h
      interval_cases n <;> decide
    · rename_i h
      rw [digitsToNat_append, ih (n / 10) (Nat.div_lt_self (by omega) (by omega))]
      have h10 : n % 10 < 10 := Nat.mod_lt _ (by omega)
      have hc : (digitChar (n % 10)).toNat - 48 = n % 10 := by
        interval_cases hm : n % 10 <;> decide
      rw [hc]
      omega

theorem natToDigits_isDigit (n : Nat) : ∀ c ∈ natToDigits n, c.isDigit = true := by
  induction n using Nat.strong_induction_on with
  | _ n ih =>
    rw [natToDigits_unfold]
    split
    · rename_i h
      intro c hc
      simp only [List.mem_singleton] at hc
      subst hc
      interval_cases n <;> decide
    · rename_i h
      intro c hc
      rw [List.mem_append] at hc
      rcases hc with hc | hc
      · exact ih (n / 10) (Nat.div_lt_self (by omega) (by omega)) c hc
      · rw [List.mem_singleton] at hc
        subst hc
        have h10 : n % 10 < 10 := Nat.mod_lt _ (by omega)
        interval_cases hm : n % 10 <;> decide

theorem natToDigits_ne_nil (n : Nat) : natToDigits n ≠ [] := by
  rw [natToDigits_unfold]
  split <;> simp

theorem takeWhile_all_append (p : Char → Bool) (a b : Str) (h : ∀ c ∈ a, p c = true) :
    (a ++ b).takeWhile p = a ++ b.takeWhile p := by
  induction a with
  | nil => simp
  | cons c ct ih =>
    rw [List.cons_append, List.takeWhile_cons, h c (by simp)]
    simp [ih fun d hd => h d (by simp [hd])]

theorem leadsWith_head (pat s : Str) (c : Char) (h : leadsWith pat (c :: s) = true)
    (hne : pat ≠ []) : pat.head? = some c := by
  cases pat with
  | nil => exact absurd rfl hne
  | cons p ps =>
    rw [leadsWith_cons_iff] at h
    simp [h.1]

theorem tplMark_drop_ne_nil : ∀ j, j ≤ 10 → tplMark.drop j ≠ [] := by decide

theorem tplMark_border :
    ∀ j, 1 ≤ j → j ≤ 10 → tplMark.drop j = tplMark.take (11 - j) → j = 10 := by decide

theorem tplMark_drop_head_ne_lb :
    ∀ j, 1 ≤ j → j ≤ 10 → (tplMark.drop j).head? ≠ some lb := by decide

theorem tryToken_none_of_not_leads (s : Str) (h : leadsWith tplMark s = false) :
    tryToken s = none := by
  rw [tryToken, if_neg]
  simp [h]

theorem drop_mark (x : Str) : (tplMark ++ x).drop 11 = x := List.drop_left tplMark x

theorem tplTokenChars_shape (k : Nat) :
    tplTokenChars k = tplMark ++ (natToDigits k ++ ('_' :: '_' :: [])) := by
  simp [tplTokenChars]

theorem tplTokenChars_length (k : Nat) : 14 ≤ (tplTokenChars k).length := by
  rw [tplTokenChars_shape]
  have := natToDigits_ne_nil k
  have hlen : 1 ≤ (natToDigits k).length := by
    cases hnd : natToDigits k with
    | nil => exact absurd hnd this
    | cons a b => simp
  simp [tplMark]
  omega

theorem tplTokenChars_cons (k : Nat) :
    tplTokenChars k
      = '_' :: '_' :: (['S', 'R', 'L', 'C', '_', 'T', 'P', 'L', '_'] ++ natToDigits k
          ++ ('_' :: '_' :: [])) := by
  rw [tplTokenChars_shape]
  simp [tplMark]

theorem tryToken_token (k : Nat) (t : Str) :
    tryToken (tplTokenChars k ++ t) = some (k, t) := by
  have hshape : tplTokenChars k ++ t = tplMark ++ (natToDigits k ++ ('_' :: '_' :: t)) := by
    rw [tplTokenChars_shape]
    simp
  rw [hshape, tryToken, if_pos (leadsWith_append_self _ _)]
  rw [drop_mark]
  have hdigits : ∀ c ∈ natToDigits k, c.isDigit = true := natToDigits_isDigit k
  rw [takeWhile_all_append _ _ _ hdigits]
  rw [List.takeWhile_cons]
  have hund : ('_' : Char).isDigit = false := by decide
  simp only [hund, Bool.false_eq_true, if_false, List.append_nil]
  rw [if_neg (by simp [natToDigits_ne_nil k])]
  rw [List.drop_left]
  rw [if_pos (by rw [leadsWith, leadsWith]; simp [leadsWith])]
  rw [digitsToNat_natToDigits]
  rfl

theorem protScanF_nil (fuel : Nat) : protScanF fuel [] = [] := by cases fuel <;> rfl

theorem protScanF_cons_ne (f : Nat) (c : Char) (rest : Str) (hc : ¬ c = lb) :
    protScanF (f + 1) (c :: rest) = Sum.inl c :: protScanF f rest := by
  rw [protScanF.eq_def]
  simp [hc]

theorem protScanF_lb_nil (f : Nat) : protScanF (f + 1) [lb] = [Sum.inl lb] := by
  rw [protScanF.eq_def]
  simp

theorem protScanF_lb_ne (f : Nat) (c2 : Char) (rest2 : Str) (hc2 : ¬ c2 = lb) :
    protScanF (f + 1) (lb :: c2 :: rest2) = Sum.inl lb :: protScanF f (c2 :: rest2) := by
  rw [protScanF.eq_def]
  simp [hc2]

theorem protScanF_match (f : Nat) (rest2 inner rest' : Str)
    (hsp : splitFirstBB rest2 = some (inner, rest')) :
    protScanF (f + 1) (lb :: lb :: rest2)
      = Sum.inr (lb :: lb :: (inner ++ [rb, rb])) :: protScanF f rest' := by
  rw [protScanF.eq_def]
  simp [hsp]

theorem protScanF_nomatch (f : Nat) (rest2 : Str) (hsp : splitFirstBB rest2 = none) :
    protScanF (f + 1) (lb :: lb :: rest2) = Sum.inl lb :: protScanF f (lb :: rest2) := by
  rw [protScanF.eq_def]
  simp [hsp]

-- The restore regex can begin matching inside a literal run and continue into
-- a token only when 10 marker characters lie in the run and the token supplies
-- the final underscore; the character after the matched marker is then the
-- token's second underscore, never a digit.  `tpl_span` captures the whole
-- spanning analysis: if a tail `tplMark.drop j` of the marker (1 ≤ j ≤ 10)
-- heads the guarded image of `s` but does not head `s` itself, then the
-- character right after the matched portion is an underscore.
theorem tpl_span (fuel : Nat) :
    ∀ s j k, s.length ≤ fuel → 1 ≤ j → j ≤ 10 →
      leadsWith (tplMark.drop j) (buildGuarded k (protScanF fuel s)) = true →
      leadsWith (tplMark.drop j) s = false →
      ∃ t, (buildGuarded k (protScanF fuel s)).drop (11 - j) = '_' :: t := by
  induction fuel with
  | zero =>
    intro s j k hs hj1 hj10 hG _
    have hsnil : s = [] := List.length_eq_zero.mp (Nat.le_zero.mp hs)
    subst hsnil
    rw [protScanF_nil, buildGuarded] at hG
    exact absurd (leadsWith_nil_right _ hG) (tplMark_drop_ne_nil j hj10)
  | succ f ih =>
    intro s j k hs hj1 hj10 hG hs'
    cases s with
    | nil =>
      rw [protScanF_nil, buildGuarded] at hG
      exact absurd (leadsWith_nil_right _ hG) (tplMark_drop_ne_nil j hj10)
    | cons c rest =>
      by_cases hc : c = lb
      · subst hc
        cases rest with
        | nil =>
          rw [protScanF_lb_nil] at hG ⊢
          have : buildGuarded k [Sum.inl lb] = [lb] := rfl
          rw [this] at hG
          exact absurd (leadsWith_head _ _ _ hG (tplMark_drop_ne_nil j hj10))
            (tplMark_drop_head_ne_lb j hj1 hj10)
        | cons c2 rest2 =>
          by_cases hc2 : c2 = lb
          · subst hc2
            rcases hsp : splitFirstBB rest2 with _ | ⟨inner, rest'⟩
            · rw [protScanF_nomatch f rest2 hsp] at hG ⊢
              rw [show buildGuarded k (Sum.inl lb :: protScanF f (lb :: rest2))
                    = lb :: buildGuarded k (protScanF f (lb :: rest2)) from rfl] at hG
              exact absurd (leadsWith_head _ _ _ hG (tplMark_drop_ne_nil j hj10))
                (tplMark_drop_head_ne_lb j hj1 hj10)
            · rw [protScanF_match f rest2 inner rest' hsp] at hG ⊢
              rw [show buildGuarded k (Sum.inr (lb :: lb :: (inner ++ [rb, rb]))
                      :: protScanF f rest')
                    = tplTokenChars k ++ buildGuarded (k + 1) (protScanF f rest')
                  from rfl] at hG ⊢
              have hplen : (tplMark.drop j).length = 11 - j := by simp [tplMark]
              have hptok : leadsWith (tplMark.drop j) (tplTokenChars k) = true := by
                refine leadsWith_append_of_le _ _ _ hG ?_
                have := tplTokenChars_length k
                omega
              have hpmark : leadsWith (tplMark.drop j) tplMark = true := by
                refine leadsWith_append_of_le _ tplMark (natToDigits k ++ ('_' :: '_' :: []))
                  ?_ ?_
                · rw [← tplTokenChars_shape]
                  exact hptok
                · simp [tplMark]
              have htake := leadsWith_eq_take _ _ hpmark
              rw [hplen] at htake
              have hj := tplMark_border j hj1 hj10 htake
              subst hj
              rw [tplTokenChars_cons]
              refine ⟨(['S', 'R', 'L', 'C', '_', 'T', 'P', 'L', '_'] ++ natToDigits k
                  ++ ('_' :: '_' :: [])) ++ buildGuarded (k + 1) (protScanF f rest'), ?_⟩
              simp
          · rw [protScanF_lb_ne f c2 rest2 hc2] at hG ⊢
            rw [show buildGuarded k (Sum.inl lb :: protScanF f (c2 :: rest2))
                  = lb :: buildGuarded k (protScanF f (c2 :: rest2)) from rfl] at hG
            exact absurd (leadsWith_head _ _ _ hG (tplMark_drop_ne_nil j hj10))
              (tplMark_drop_head_ne_lb j hj1 hj10)
      · rw [protScanF_cons_ne f c rest hc] at hG ⊢
        rw [show buildGuarded k (Sum.inl c :: protScanF f rest)
              = c :: buildGuarded k (protScanF f rest) from rfl] at hG ⊢
        have hjlt : j < tplMark.length := by simp [tplMark]; omega
        have hdropc : tplMark.drop j = tplMark[j] :: tplMark.drop (j + 1) :=
          List.drop_eq_getElem_cons hjlt
        by_cases hj : j = 10
        · subst hj
          have h10 : tplMark.drop 10 = ['_'] := by decide
          rw [h10] at hG hs'
          rw [leadsWith_cons_iff] at hG
          obtain ⟨hcu, -⟩ := hG
          rw [← hcu] at hs'
          have htrue : leadsWith ['_'] ('_' :: rest) = true := by
            rw [leadsWith]
            simp [leadsWith]
          rw [htrue] at hs'
          simp at hs'
        · have hj10' : j + 1 ≤ 10 := by omega
          rw [hdropc, leadsWith_cons_iff] at hG
          obtain ⟨hcc, hG1⟩ := hG
          have hs1 : leadsWith (tplMark.drop (j + 1)) rest = false := by
            by_contra hb
            have hb' : leadsWith (tplMark.drop (j + 1)) rest = true := by
              revert hb
              cases leadsWith (tplMark.drop (j + 1)) rest <;> simp
            have : leadsWith (tplMark.drop j) (c :: rest) = true := by
              rw [hdropc, leadsWith_cons_iff]
              exact ⟨hcc, hb'⟩
            rw [this] at hs'
            simp at hs'
          have hrl : rest.length ≤ f := by
            simp only [List.length_cons] at hs
            omega
          obtain ⟨t, ht⟩ := ih rest (j + 1) k hrl (by omega) hj10' hG1 hs1
          rw [show 11 - (j + 1) = 10 - j by omega] at ht
          refine ⟨t, ?_⟩
          rw [show 11 - j = (10 - j) + 1 by omega, List.drop_succ_cons]
          exact ht

theorem tpl_litpos_none (fuel : Nat) (s : Str) (k : Nat) (c : Char)
    (hs : s.length ≤ fuel) (hocc : occursIn tplMark (c :: s) = false) :
    tryToken (c :: buildGuarded k (protScanF fuel s)) = none := by
  by_cases hL : leadsWith tplMark (c :: buildGuarded k (protScanF fuel s)) = true
  · have hM : tplMark = '_' :: tplMark.drop 1 := rfl
    rw [hM, leadsWith_cons_iff] at hL
    obtain ⟨hc, hL1⟩ := hL
    have hrest : leadsWith (tplMark.drop 1) s = false := by
      by_contra hb
      have hb' : leadsWith (tplMark.drop 1) s = true := by
        revert hb
        cases leadsWith (tplMark.drop 1) s <;> simp
      have hlead : leadsWith tplMark (c :: s) = true := by
        rw [hM, leadsWith_cons_iff]
        exact ⟨hc, hb'⟩
      rw [occursIn, hlead] at hocc
      simp at hocc
    obtain ⟨t, ht⟩ := tpl_span fuel s 1 k hs (le_refl 1) (by omega) hL1 hrest
    have hLL : leadsWith tplMark (c :: buildGuarded k (protScanF fuel s)) = true := by
      rw [hM, leadsWith_cons_iff]
      exact ⟨hc, hL1⟩
    rw [tryToken, if_pos hLL]
    have hdrop : (c :: buildGuarded k (protScanF fuel s)).drop 11
        = (buildGuarded k (protScanF fuel s)).drop 10 := rfl
    rw [hdrop]
    rw [show (11 : Nat) - 1 = 10 from rfl] at ht
    rw [ht, List.takeWhile_cons]
    have hund : ('_' : Char).isDigit = false := by decide
    simp [hund]
  · refine tryToken_none_of_not_leads _ ?_
    revert hL
    cases leadsWith tplMark (c :: buildGuarded k (protScanF fuel s)) <;> simp

theorem tpl_litSafe (fuel : Nat) :
    ∀ s k, s.length ≤ fuel → occursIn tplMark s = false → LitSafe k (protScanF fuel s) := by
  induction fuel with
  | zero =>
    intro s k hs _
    have hnil : s = [] := List.length_eq_zero.mp (Nat.le_zero.mp hs)
    subst hnil
    rw [protScanF_nil]
    trivial
  | succ f ih =>
    intro s k hs hocc
    cases s with
    | nil =>
      rw [protScanF_nil]
      trivial
    | cons c rest =>
      by_cases hc : c = lb
      · subst hc
        cases rest with
        | nil =>
          rw [protScanF_lb_nil]
          exact ⟨(by decide : tryToken [lb] = none), trivial⟩
        | cons c2 rest2 =>
          by_cases hc2 : c2 = lb
          · subst hc2
            rcases hsp : splitFirstBB rest2 with _ | ⟨inner, rest'⟩
            · rw [protScanF_nomatch f rest2 hsp]
              have hlen : (lb :: rest2).length ≤ f := by
                simp only [List.length_cons] at hs ⊢
                omega
              refine ⟨tpl_litpos_none f (lb :: rest2) k lb hlen hocc,
                ih (lb :: rest2) k hlen ?_⟩
              exact not_occursIn_suffix _ [lb] _ (by simpa using hocc)
            · rw [protScanF_match f rest2 inner rest' hsp]
              have hspec := splitFirstBB_spec rest2 inner rest' hsp
              have hlen : rest'.length ≤ f := by
                rw [hspec] at hs
                simp at hs
                omega
              have hocc' : occursIn tplMark rest' = false := by
                refine not_occursIn_suffix _ (lb :: lb :: (inner ++ [rb, rb])) _ ?_
                have hshape : lb :: lb :: rest2
                    = (lb :: lb :: (inner ++ [rb, rb])) ++ rest' := by
                  rw [hspec]
                  simp
                rw [← hshape]
                exact hocc
              exact ih rest' (k + 1) hlen hocc'
          · rw [protScanF_lb_ne f c2 rest2 hc2]
            have hlen : (c2 :: rest2).length ≤ f := by
              simp only [List.length_cons] at hs ⊢
              omega
            refine ⟨tpl_litpos_none f (c2 :: rest2) k lb hlen hocc,
              ih (c2 :: rest2) k hlen ?_⟩
            exact not_occursIn_suffix _ [lb] _ (by simpa using hocc)
      · rw [protScanF_cons_ne f c rest hc]
        have hlen : rest.length ≤ f := by
          simp only [List.length_cons] at hs
          omega
        refine ⟨tpl_litpos_none f rest k c hlen hocc, ih rest k hlen ?_⟩
        exact not_occursIn_suffix _ [c] _ (by simpa using hocc)

theorem protScanF_zero (s : Str) : protScanF 0 s = s.map Sum.inl := rfl

theorem partsText_map_inl (s : Str) : partsText (s.map Sum.inl) = s := by
  induction s with
  | nil => rfl
  | cons c ct ih => simp [partsText, ih]

theorem partsText_protScanF (fuel : Nat) : ∀ s, partsText (protScanF fuel s) = s := by
  induction fuel with
  | zero =>
    intro s
    rw [protScanF_zero]
    exact partsText_map_inl s
  | succ f ih =>
    intro s
    cases s with
    | nil => rw [protScanF_nil]; rfl
    | cons c rest =>
      by_cases hc : c = lb
      · subst hc
        cases rest with
        | nil => rw [protScanF_lb_nil]; rfl
        | cons c2 rest2 =>
          by_cases hc2 : c2 = lb
          · subst hc2
            rcases hsp : splitFirstBB rest2 with _ | ⟨inner, rest'⟩
            · rw [protScanF_nomatch f rest2 hsp]
              show lb :: partsText (protScanF f (lb :: rest2)) = lb :: lb :: rest2
              rw [ih]
            · rw [protScanF_match f rest2 inner rest' hsp]
              show (lb :: lb :: (inner ++ [rb, rb])) ++ partsText (protScanF f rest')
                  = lb :: lb :: rest2
              rw [ih, splitFirstBB_spec rest2 inner rest' hsp]
              simp
          · rw [protScanF_lb_ne f c2 rest2 hc2]
            show lb :: partsText (protScanF f (c2 :: rest2)) = lb :: c2 :: rest2
            rw [ih]
      · rw [protScanF_cons_ne f c rest hc]
        show c :: partsText (protScanF f rest) = c :: rest
        rw [ih]

theorem getD_append_len (pre : List Str) (m : Str) (t : List Str) (d : Str) :
    (pre ++ m :: t).getD pre.length d = m := by
  induction pre with
  | nil => rfl
  | cons p pt ih => simpa using ih

theorem psOk_matches : ∀ (parts : List (Char ⊕ Str)) (pre : List Str),
    PsOk (pre ++ matchesOf parts) pre.length parts := by
  intro parts
  induction parts with
  | nil => intro pre; trivial
  | cons p rest ih =>
    intro pre
    cases p with
    | inl c =>
      have hm : matchesOf (Sum.inl c :: rest) = matchesOf rest := by simp [matchesOf]
      show PsOk (pre ++ matchesOf (Sum.inl c :: rest)) pre.length rest
      rw [hm]
      exact ih pre
    | inr m =>
      have hm : matchesOf (Sum.inr m :: rest) = m :: matchesOf rest := by simp [matchesOf]
      refine ⟨?_, ?_⟩
      · rw [hm]
        exact getD_append_len pre m (matchesOf rest) undefinedStr
      · rw [hm]
        have hx := ih (pre ++ [m])
        simpa using hx

theorem restoreScanF_nil (ps : List Str) (fuel : Nat) : restoreScanF ps fuel [] = [] := by
  cases fuel <;> rfl

theorem restoreScanF_cons (ps : List Str) (f : Nat) (c : Char) (t : Str) :
    restoreScanF ps (f + 1) (c :: t)
      = match tryToken (c :: t) with
        | some (i, r) => ps.getD i undefinedStr ++ restoreScanF ps f r
        | none => c :: restoreScanF ps f t := rfl

theorem restoreScanF_token_step (ps : List Str) (f k : Nat) (t : Str) :
    restoreScanF ps (f + 1) (tplTokenChars k ++ t)
      = ps.getD k undefinedStr ++ restoreScanF ps f t := by
  rw [tplTokenChars_cons, List.cons_append, restoreScanF_cons, ← List.cons_append,
    ← tplTokenChars_cons, tryToken_token]

theorem restore_build : ∀ (parts : List (Char ⊕ Str)) (k : Nat) (ps : List Str) (fuel : Nat),
    (buildGuarded k parts).length ≤ fuel → LitSafe k parts → PsOk ps k parts →
    restoreScanF ps fuel (buildGuarded k parts) = partsText parts := by
  intro parts
  induction parts with
  | nil =>
    intro k ps fuel _ _ _
    exact restoreScanF_nil ps fuel
  | cons p rest ih =>
    intro k ps fuel hf hsafe hok
    cases p with
    | inl c =>
      obtain ⟨hnone, hsafe'⟩ := hsafe
      cases fuel with
      | zero =>
        exfalso
        have : (c :: buildGuarded k rest).length ≤ 0 := hf
        simp at this
      | succ f =>
        show restoreScanF ps (f + 1) (c :: buildGuarded k rest) = c :: partsText rest
        rw [restoreScanF_cons, hnone]
        show c :: restoreScanF ps f (buildGuarded k rest) = c :: partsText rest
        have hlen : (buildGuarded k rest).length ≤ f := by
          have : (c :: buildGuarded k rest).length ≤ f + 1 := hf
          simp at this
          omega
        rw [ih k ps f hlen hsafe' hok]
    | inr m =>
      obtain ⟨hget, hok'⟩ := hok
      cases fuel with
      | zero =>
        exfalso
        have hfold : buildGuarded k (Sum.inr m :: rest)
            = tplTokenChars k ++ buildGuarded (k + 1) rest := rfl
        rw [hfold, List.length_append] at hf
        have := tplTokenChars_length k
        omega
      | succ f =>
        show restoreScanF ps (f + 1) (tplTokenChars k ++ buildGuarded (k + 1) rest)
            = m ++ partsText rest
        have hlen : (buildGuarded (k + 1) rest).length ≤ f := by
          have hfold : buildGuarded k (Sum.inr m :: rest)
              = tplTokenChars k ++ buildGuarded (k + 1) rest := rfl
          rw [hfold, List.length_append] at hf
          have := tplTokenChars_length k
          omega
        rw [restoreScanF_token_step, hget, ih (k + 1) ps f hlen hsafe hok']

theorem buildGuarded_of_no_matches : ∀ (parts : List (Char ⊕ Str)) (k : Nat),
    matchesOf parts = [] → buildGuarded k parts = partsText parts := by
  intro parts
  induction parts with
  | nil => intro k _; rfl
  | cons p rest ih =>
    intro k hm
    cases p with
    | inl c =>
      have hm' : matchesOf rest = [] := by simpa [matchesOf] using hm
      show c :: buildGuarded k rest = c :: partsText rest
      rw [ih k hm']
    | inr m => simp [matchesOf] at hm

/-- Claim C1 (counterexample): the round-trip law fails as stated for all
inputs.  On the input consisting of one template expression followed by the
literal text `__SRLC_TPL_0__`, protection yields the guarded string
`__SRLC_TPL_0____SRLC_TPL_0__`, and restoration rewrites both token
occurrences, returning a string with the template expression duplicated
instead of the original input. -/
theorem C1_roundtrip_counterexample :
    restoreTemplateSyntax (protectTemplateSyntax tplCxInput).1
      (protectTemplateSyntax tplCxInput).2 ≠ tplCxInput := by
  decide

/-- Claim C1 (amended): for every input string in which the placeholder marker
`__SRLC_TPL_` does not occur as a substring, restoreTemplateSyntax applied to
the guarded html and placeholder list produced by protectTemplateSyntax
returns the original input, including for zero, one, many, adjacent, or
nested-looking template expressions. -/
theorem C1_roundtrip (html : Str) (h : occursIn tplMark html = false) :
    restoreTemplateSyntax (protectTemplateSyntax html).1 (protectTemplateSyntax html).2
      = html := by
  show restoreTemplateSyntax (buildGuarded 0 (protScanF html.length html))
      (matchesOf (protScanF html.length html)) = html
  rw [restoreTemplateSyntax]
  by_cases hm : (matchesOf (protScanF html.length html)).isEmpty = true
  · rw [if_pos hm]
    rw [buildGuarded_of_no_matches _ 0 (List.isEmpty_iff.mp hm)]
    exact partsText_protScanF html.length html
  · rw [if_neg hm]
    have hsafe := tpl_litSafe html.length html 0 (le_refl _) h
    have hok : PsOk (matchesOf (protScanF html.length html)) 0
        (protScanF html.length html) := by
      simpa using psOk_matches (protScanF html.length html) []
    rw [restore_build (protScanF html.length html) 0 _ _ (le_refl _) hsafe hok]
    exact partsText_protScanF html.length html

/-- Witness for C1_roundtrip: a concrete input with two template expressions,
adjacent text, and no marker substring; the hypotheses are discharged by
computation. -/
theorem C1_roundtrip_witness :
    occursIn tplMark tplWitInput = false ∧
      restoreTemplateSyntax (protectTemplateSyntax tplWitInput).1
        (protectTemplateSyntax tplWitInput).2 = tplWitInput :=
  ⟨by decide, C1_roundtrip tplWitInput (by decide)⟩

theorem leadsWith_head_eq (p : Char) (pt s : Str) (h : leadsWith (p :: pt) s = true) :
    s.head? = some p := by
  obtain ⟨t, rfl⟩ := (leadsWith_iff _ _).mp h
  rfl

theorem absLooking_nonNav_false (s : Str) (h : absLooking s = true) :
    nonNavigational s = false := by
  rw [absLooking, Bool.or_eq_true, Bool.or_eq_true] at h
  have hhead : s.head? = some 'h' ∨ s.head? = some '/' := by
    rcases h with (h | h) | h
    · exact Or.inl (leadsWith_head_eq 'h' _ s h)
    · exact Or.inl (leadsWith_head_eq 'h' _ s h)
    · exact Or.inr (leadsWith_head_eq '/' _ s h)
  have h1 : s.isEmpty = false := by
    cases s with
    | nil => simp at hhead
    | cons c cs => rfl
  have h2 : (s == ['#']) = false := by
    cases hb : s == ['#'] with
    | false => rfl
    | true =>
      have : s = ['#'] := eq_of_beq hb
      subst this
      rcases hhead with hh | hh <;> exact absurd hh (by decide)
  have h3 : leadsWith jsSchemeStr s = false := by
    cases hl : leadsWith jsSchemeStr s with
    | false => rfl
    | true =>
      have := leadsWith_head_eq 'j' ("avascript:".toList) s hl
      rw [this] at hhead
      rcases hhead with hh | hh <;> simp at hh
  have h4 : leadsWith mailtoStr s = false := by
    cases hl : leadsWith mailtoStr s with
    | false => rfl
    | true =>
      have := leadsWith_head_eq 'm' ("ailto:".toList) s hl
      rw [this] at hhead
      rcases hhead with hh | hh <;> simp at hh
  have h5 : leadsWith telStr s = false := by
    cases hl : leadsWith telStr s with
    | false => rfl
    | true =>
      have := leadsWith_head_eq 't' ("el:".toList) s hl
      rw [this] at hhead
      rcases hhead with hh | hh <;> simp at hh
  rw [nonNavigational, h1, h2, h3, h4, h5]
  rfl

/-- Claim C9: URL normalization is total: for every URL-parser behaviour and
every input string, normalizeUrl returns null exactly on the non-navigational
inputs (empty/whitespace-only, bare '#', javascript:/mailto:/tel: schemes) and
a string key otherwise; in particular a parsing failure on an absolute-looking
string falls back to literal query/fragment stripping of the lower-cased href
instead of propagating an error. -/
theorem C9_normalize_total (parse : Str → Option UrlParts) (href : Str) :
    (normalizeUrl parse href = none ↔ nonNavigational (trimStr href) = true)
      ∧ (absLooking (trimStr href) = true → parse (trimStr href) = none →
          normalizeUrl parse href
            = some (takeUntil '#' (takeUntil '?' (lowerStr (trimStr href))))) := by
  by_cases h0 : href.isEmpty = true
  · have hnil : href = [] := List.isEmpty_iff.mp h0
    subst hnil
    refine ⟨⟨fun _ => by decide, fun _ => by rw [normalizeUrl]; rfl⟩, fun habs _ => ?_⟩
    exact absurd habs (by decide)
  · rw [normalizeUrl, if_neg h0]
    simp only []
    by_cases h1 : nonNavigational (trimStr href) = true
    · rw [if_pos h1]
      refine ⟨⟨fun _ => h1, fun _ => rfl⟩, fun habs _ => ?_⟩
      rw [absLooking_nonNav_false _ habs] at h1
      simp at h1
    · rw [if_neg h1]
      by_cases h2 : absLooking (trimStr href) = true
      · rw [if_pos h2]
        rcases hp : parse (trimStr href) with _ | u
        · exact ⟨⟨fun h => by simp at h, fun h => absurd h h1⟩, fun _ _ => rfl⟩
        · refine ⟨⟨fun h => by simp at h, fun h => absurd h h1⟩, fun _ hpn => ?_⟩
          simp at hpn
      · rw [if_neg h2]
        exact ⟨⟨fun h => by simp at h, fun h => absurd h h1⟩, fun habs _ => absurd habs h2⟩

/-- Witness for C9_normalize_total at a malformed absolute-looking input: with
the concrete parser model (which rejects an empty authority, as the platform
constructor throws on `https:///..`), normalization of "https:///A/?q" falls
back to the literal strip-and-lowercase key "https:///a/". -/
theorem C9_normalize_total_witness :
    normalizeUrlJs "https:///A/?q#f".toList = some "https:///a/".toList :=
  ((C9_normalize_total urlParse "https:///A/?q#f".toList).2 (by decide) (by decide)).trans
    (by decide)

/-- Claim C4 (counterexample): the four example hrefs do not all normalize to
one key: "a/" normalizes to "a" while "/a" normalizes to "/a". -/
theorem C4_normalization_counterexample :
    normalizeUrlJs "a/".toList ≠ normalizeUrlJs "/a".toList := by decide

/-- Claim C4 (amended): normalizeUrl("https://x.com/a/"), normalizeUrl("/a")
and normalizeUrl("/a?x=1#y") all return the key "/a"; normalizeUrl("a/")
returns the distinct key "a", since a bare relative path keeps no leading
slash after trailing-slash stripping. -/
theorem C4_normalization_equivalence :
    normalizeUrlJs "https://x.com/a/".toList = some "/a".toList
      ∧ normalizeUrlJs "/a".toList = some "/a".toList
      ∧ normalizeUrlJs "/a?x=1#y".toList = some "/a".toList
      ∧ normalizeUrlJs "a/".toList = some "a".toList := by decide


theorem isTextLink_setKeep (b : Bool) (l : Link) : isTextLink (setKeep b l) = isTextLink l := rfl

theorem filter_isText_map_setKeep (b : Bool) (ls : List Link) :
    (ls.map (setKeep b)).filter isTextLink = (ls.filter isTextLink).map (setKeep b) := by
  induction ls with
  | nil => rfl
  | cons l rest ih =>
    by_cases h : isTextLink l = true
    · simp [List.filter_cons, isTextLink_setKeep, h, ih]
    · have h' : isTextLink l = false := by
        revert h
        cases isTextLink l <;> simp
      simp [List.filter_cons, isTextLink_setKeep, h', ih]

theorem stripAfterFirst_filter_true (ls : List Link) :
    (stripAfterFirst true ls).filter isTextLink
      = (ls.filter isTextLink).map (setKeep false) := by
  induction ls with
  | nil => rfl
  | cons l rest ih =>
    rw [stripAfterFirst]
    by_cases himg : (l.isImageLink || l.isCtaLink) = true
    · rw [if_pos himg]
      have htext : isTextLink l = false := by
        rw [isTextLink]
        rcases Bool.or_eq_true _ _ |>.mp himg with h | h <;> simp [h]
      simp only [List.filter_cons, isTextLink_setKeep, htext]
      simpa using ih
    · rw [if_neg himg, if_pos rfl]
      have htext : isTextLink l = true := by
        rw [isTextLink]
        rcases Bool.or_eq_false_iff.mp (Bool.not_eq_true _ |>.mp himg) with ⟨h1, h2⟩
        simp [h1, h2]
      simp only [List.filter_cons, isTextLink_setKeep, htext]
      simpa using ih

theorem stripAfterFirst_filter_false_nil (ls : List Link)
    (h : ls.filter isTextLink = []) :
    (stripAfterFirst false ls).filter isTextLink = [] := by
  induction ls with
  | nil => rfl
  | cons l rest ih =>
    rw [List.filter_cons] at h
    rw [stripAfterFirst]
    by_cases himg : (l.isImageLink || l.isCtaLink) = true
    · have htext : isTextLink l = false := by
        rw [isTextLink]
        rcases Bool.or_eq_true _ _ |>.mp himg with h' | h' <;> simp [h']
      rw [if_pos himg]
      simp only [htext, Bool.false_eq_true, if_false] at h
      simp only [List.filter_cons, isTextLink_setKeep, htext]
      simpa using ih h
    · have htext : isTextLink l = true := by
        rw [isTextLink]
        rcases Bool.or_eq_false_iff.mp (Bool.not_eq_true _ |>.mp himg) with ⟨h1, h2⟩
        simp [h1, h2]
      simp [htext] at h

theorem stripAfterFirst_filter_false_cons (ls : List Link) (x : Link) (xs : List Link)
    (h : ls.filter isTextLink = x :: xs) :
    (stripAfterFirst false ls).filter isTextLink
      = setKeep true x :: xs.map (setKeep false) := by
  induction ls with
  | nil => simp at h
  | cons l rest ih =>
    rw [List.filter_cons] at h
    rw [stripAfterFirst]
    by_cases himg : (l.isImageLink || l.isCtaLink) = true
    · have htext : isTextLink l = false := by
        rw [isTextLink]
        rcases Bool.or_eq_true _ _ |>.mp himg with h' | h' <;> simp [h']
      rw [if_pos himg]
      simp only [htext, Bool.false_eq_true, if_false] at h
      simp only [List.filter_cons, isTextLink_setKeep, htext]
      simpa using ih h
    · have htext : isTextLink l = true := by
        rw [isTextLink]
        rcases Bool.or_eq_false_iff.mp (Bool.not_eq_true _ |>.mp himg) with ⟨h1, h2⟩
        simp [h1, h2]
      rw [if_neg himg]
      rw [htext] at h
      rw [if_pos rfl] at h
      rw [List.cons_eq_cons] at h
      obtain ⟨hx, hxs⟩ := h
      subst hx hxs
      simp [List.filter_cons, isTextLink_setKeep, htext, stripAfterFirst_filter_true]

theorem range_indicator (n : Nat) :
    (List.range (n + 1)).map (fun i => decide (i = 0)) = true :: List.replicate n false := by
  rw [List.range_succ_eq_map, List.map_cons, List.map_map]
  refine congrArg (true :: ·) ?_
  rw [List.eq_replicate_iff]
  refine ⟨by simp, ?_⟩
  intro b hb
  rw [List.mem_map] at hb
  obtain ⟨i, _, hi⟩ := hb
  simp at hi
  rw [← hi]

theorem map_keep_setKeep (b : Bool) (xs : List Link) :
    (xs.map (setKeep b)).map Link.keep = List.replicate xs.length b := by
  induction xs with
  | nil => rfl
  | cons x xt ih => simp [ih, setKeep, List.replicate_succ]

/-- Claim C2: per-group auto-strip text policy.  After applyAutoStrip runs on
a group, when the group has exactly two text (non-image, non-CTA) links whose
trimmed lower-cased anchor texts differ, every text link keeps true (source:
all links of the group do); otherwise the first text link in document order
keeps true and every subsequent text link keeps false. -/
theorem C2_autostrip_text_policy (g : LinkGroup) :
    ((textLinksOf g).length = 2 ∧ hasDifferentAnchors (textLinksOf g) = true →
      (textLinksOf (applyAutoStripGroup g)).map Link.keep
        = List.replicate (textLinksOf (applyAutoStripGroup g)).length true)
    ∧ (¬ ((textLinksOf g).length = 2 ∧ hasDifferentAnchors (textLinksOf g) = true) →
      (textLinksOf (applyAutoStripGroup g)).map Link.keep
        = (List.range (textLinksOf (applyAutoStripGroup g)).length).map
            fun i => decide (i = 0)) := by
  constructor
  · intro hcond
    have hcond' : (g.links.filter isTextLink).length = 2
        ∧ hasDifferentAnchors (g.links.filter isTextLink) = true := hcond
    rw [applyAutoStripGroup]
    simp only [textLinksOf]
    rw [if_pos hcond']
    show (List.filter isTextLink (g.links.map (setKeep true))).map Link.keep
        = List.replicate (List.filter isTextLink (g.links.map (setKeep true))).length true
    rw [filter_isText_map_setKeep, map_keep_setKeep]
    simp
  · intro hcond
    have hcond' : ¬ ((g.links.filter isTextLink).length = 2
        ∧ hasDifferentAnchors (g.links.filter isTextLink) = true) := hcond
    rw [applyAutoStripGroup]
    simp only [textLinksOf]
    rw [if_neg hcond']
    show (List.filter isTextLink (stripAfterFirst false g.links)).map Link.keep
        = (List.range (List.filter isTextLink (stripAfterFirst false g.links)).length).map
            fun i => decide (i = 0)
    rcases hfe : g.links.filter isTextLink with _ | ⟨x, xs⟩
    · rw [stripAfterFirst_filter_false_nil g.links hfe]
      rfl
    · rw [stripAfterFirst_filter_false_cons g.links x xs hfe]
      rw [show (setKeep true x :: xs.map (setKeep false)).length = xs.length + 1 from by simp]
      rw [range_indicator]
      simp only [List.map_cons]
      rw [show (setKeep true x).keep = true from rfl, map_keep_setKeep]

theorem setKeep_setKeep (b c : Bool) (l : Link) : setKeep b (setKeep c l) = setKeep b l := rfl

theorem stripAfterFirst_protected_kept (b : Bool) (ls : List Link) :
    ∀ l ∈ stripAfterFirst b ls, l.isImageLink = true ∨ l.isCtaLink = true → l.keep = true := by
  induction ls generalizing b with
  | nil =>
    intro l hl
    rw [stripAfterFirst] at hl
    simp at hl
  | cons x rest ih =>
    intro l hl himg
    rw [stripAfterFirst] at hl
    by_cases hx : (x.isImageLink || x.isCtaLink) = true
    · rw [if_pos hx] at hl
      rcases List.mem_cons.mp hl with rfl | hl'
      · rfl
      · exact ih b l hl' himg
    · rw [if_neg hx] at hl
      cases b with
      | true =>
        rw [if_pos rfl] at hl
        rcases List.mem_cons.mp hl with rfl | hl'
        · exfalso
          rcases Bool.or_eq_false_iff.mp (Bool.not_eq_true _ |>.mp hx) with ⟨h1, h2⟩
          rcases himg with h | h
          · rw [show (setKeep false x).isImageLink = x.isImageLink from rfl, h1] at h
            simp at h
          · rw [show (setKeep false x).isCtaLink = x.isCtaLink from rfl, h2] at h
            simp at h
        · exact ih true l hl' himg
      | false =>
        rw [if_neg (by simp)] at hl
        rcases List.mem_cons.mp hl with rfl | hl'
        · rfl
        · exact ih true l hl' himg

/-- Claim C3: keep invariant for protected kinds.  After applyAutoStrip runs,
every Link in any group whose isImageLink or isCtaLink flag is true has
keep = true, regardless of how many such occurrences the group contains. -/
theorem C3_protected_links_kept (groups : List LinkGroup) (g : LinkGroup)
    (hg : g ∈ applyAutoStrip groups) (l : Link) (hl : l ∈ g.links)
    (h : l.isImageLink = true ∨ l.isCtaLink = true) : l.keep = true := by
  rw [applyAutoStrip, List.mem_map] at hg
  obtain ⟨g0, _, rfl⟩ := hg
  rw [applyAutoStripGroup] at hl
  by_cases hcond : (textLinksOf g0).length = 2 ∧ hasDifferentAnchors (textLinksOf g0) = true
  · rw [if_pos hcond] at hl
    have hl' : l ∈ g0.links.map (setKeep true) := hl
    rw [List.mem_map] at hl'
    obtain ⟨l0, _, rfl⟩ := hl'
    rfl
  · rw [if_neg hcond] at hl
    have hl' : l ∈ stripAfterFirst false g0.links := hl
    exact stripAfterFirst_protected_kept false g0.links l hl' h

/-- Witness for C3_protected_links_kept: in a concrete group holding one image
link (analysed with keep initially false) and two identical text links, the
image link ends with keep = true after auto-strip. -/
theorem C3_protected_links_kept_witness :
    ((applyAutoStripGroup egGroupA).links.getD 0 blankLink).keep = true :=
  C3_protected_links_kept [egGroupA] (applyAutoStripGroup egGroupA) (by decide)
    ((applyAutoStripGroup egGroupA).links.getD 0 blankLink) (by decide) (by decide)

theorem hasDifferentAnchors_map_setKeep (b : Bool) (xs : List Link) :
    hasDifferentAnchors (xs.map (setKeep b)) = hasDifferentAnchors xs := by
  rw [hasDifferentAnchors, hasDifferentAnchors, List.length_map, List.map_map]
  rfl

theorem hasDifferentAnchors_strip_shape (x : Link) (xs : List Link) :
    hasDifferentAnchors (setKeep true x :: xs.map (setKeep false))
      = hasDifferentAnchors (x :: xs) := by
  rw [hasDifferentAnchors, hasDifferentAnchors]
  simp only [List.length_cons, List.length_map, List.map_cons, List.map_map]
  rfl

theorem stripAfterFirst_idem (ls : List Link) :
    ∀ b, stripAfterFirst b (stripAfterFirst b ls) = stripAfterFirst b ls := by
  induction ls with
  | nil => intro b; rfl
  | cons x rest ih =>
    intro b
    rw [stripAfterFirst]
    by_cases hx : (x.isImageLink || x.isCtaLink) = true
    · rw [if_pos hx]
      rw [stripAfterFirst]
      rw [if_pos (show ((setKeep true x).isImageLink || (setKeep true x).isCtaLink) = true
        from hx)]
      rw [setKeep_setKeep, ih b]
    · rw [if_neg hx]
      cases b with
      | true =>
        rw [if_pos rfl]
        rw [stripAfterFirst]
        rw [if_neg (show ¬ ((setKeep false x).isImageLink || (setKeep false x).isCtaLink)
            = true from hx)]
        rw [if_pos rfl, setKeep_setKeep, ih true]
      | false =>
        rw [if_neg (by simp)]
        rw [stripAfterFirst]
        rw [if_neg (show ¬ ((setKeep true x).isImageLink || (setKeep true x).isCtaLink)
            = true from hx)]
        rw [if_neg (by simp), setKeep_setKeep, ih true]

theorem applyAutoStripGroup_idem (g : LinkGroup) :
    applyAutoStripGroup (applyAutoStripGroup g) = applyAutoStripGroup g := by
  by_cases hcond : (textLinksOf g).length = 2 ∧ hasDifferentAnchors (textLinksOf g) = true
  · have h1 : applyAutoStripGroup g = { g with links := g.links.map (setKeep true) } := by
      rw [applyAutoStripGroup, if_pos hcond]
    rw [h1]
    have htl : textLinksOf { g with links := g.links.map (setKeep true) }
        = (textLinksOf g).map (setKeep true) := by
      show (g.links.map (setKeep true)).filter isTextLink = _
      rw [filter_isText_map_setKeep]
      rfl
    have hcond2 : (textLinksOf { g with links := g.links.map (setKeep true) }).length = 2
        ∧ hasDifferentAnchors (textLinksOf { g with links := g.links.map (setKeep true) })
          = true := by
      rw [htl, List.length_map, hasDifferentAnchors_map_setKeep]
      exact hcond
    rw [applyAutoStripGroup, if_pos hcond2]
    show ({ g with links := (g.links.map (setKeep true)).map (setKeep true) } : LinkGroup)
        = { g with links := g.links.map (setKeep true) }
    rw [List.map_map]
    have hfun : setKeep true ∘ setKeep true = setKeep true := by
      funext l
      exact setKeep_setKeep true true l
    rw [hfun]
  · have h1 : applyAutoStripGroup g = { g with links := stripAfterFirst false g.links } := by
      rw [applyAutoStripGroup, if_neg hcond]
    rw [h1]
    have hcond2 : ¬ ((textLinksOf { g with links := stripAfterFirst false g.links }).length = 2
        ∧ hasDifferentAnchors (textLinksOf { g with links := stripAfterFirst false g.links })
          = true) := by
      intro hc
      apply hcond
      rcases hfe : g.links.filter isTextLink with _ | ⟨x, xs⟩
      · have hnil : textLinksOf { g with links := stripAfterFirst false g.links } = [] :=
          stripAfterFirst_filter_false_nil g.links hfe
        rw [hnil] at hc
        simp at hc
      · have hshape : textLinksOf { g with links := stripAfterFirst false g.links }
            = setKeep true x :: xs.map (setKeep false) :=
          stripAfterFirst_filter_false_cons g.links x xs hfe
        rw [hshape] at hc
        have hg : textLinksOf g = x :: xs := hfe
        refine ⟨?_, ?_⟩
        · rw [hg]
          have := hc.1
          simpa using this
        · rw [hg, ← hasDifferentAnchors_strip_shape x xs]
          exact hc.2
    rw [applyAutoStripGroup, if_neg hcond2]
    show ({ g with links := stripAfterFirst false (stripAfterFirst false g.links) } : LinkGroup)
        = { g with links := stripAfterFirst false g.links }
    rw [stripAfterFirst_idem g.links false]

/-- Claim C7: auto-strip idempotence.  Running applyAutoStrip twice in
succession, with no toggles or href changes in between, yields the same
group state (hence the same keep flag on every Link) as running it once. -/
theorem C7_autostrip_idempotent (groups : List LinkGroup) :
    applyAutoStrip (applyAutoStrip groups) = applyAutoStrip groups := by
  simp only [applyAutoStrip, List.map_map]
  refine List.map_congr_left ?_
  intro g _
  exact applyAutoStripGroup_idem g

theorem flipKeepFirst_length (id : Nat) (ls : List Link) :
    (flipKeepFirst id ls).length = ls.length := by
  induction ls with
  | nil => rfl
  | cons x rest ih =>
    rw [flipKeepFirst]
    by_cases hx : x.id = id
    · rw [if_pos hx]
      simp
    · rw [if_neg hx]
      simpa using ih

theorem flipKeepFirst_getD (id : Nat) (ls : List Link) :
    ∀ l, ls.find? (fun l => l.id == id) = some l →
      (l.isImageLink || l.isCtaLink) = false →
      ∀ i, i < ls.length →
        (flipKeepFirst id ls).getD i blankLink = ls.getD i blankLink
          ∨ ((ls.getD i blankLink).id = id
              ∧ (ls.getD i blankLink).isImageLink = false
              ∧ (ls.getD i blankLink).isCtaLink = false
              ∧ (flipKeepFirst id ls).getD i blankLink
                = setKeep (!(ls.getD i blankLink).keep) (ls.getD i blankLink)) := by
  induction ls with
  | nil =>
    intro l _ _ i hi
    simp at hi
  | cons x rest ih =>
    intro l hf hguard i hi
    simp only [List.find?_cons] at hf
    by_cases hx : (x.id == id) = true
    · rw [hx] at hf
      have hlx : x = l := by simpa using hf
      have hxid : x.id = id := by simpa using hx
      rw [flipKeepFirst, if_pos hxid]
      cases i with
      | zero =>
        right
        subst hlx
        refine ⟨hxid, ?_, ?_, rfl⟩
        · exact (Bool.or_eq_false_iff.mp hguard).1
        · exact (Bool.or_eq_false_iff.mp hguard).2
      | succ j => left; rfl
    · have hxf : (x.id == id) = false := by
        revert hx
        cases x.id == id <;> simp
      rw [hxf] at hf
      have hf' : List.find? (fun l : Link => l.id == id) rest = some l := hf
      have hxid : ¬ x.id = id := by simpa using hxf
      rw [flipKeepFirst, if_neg hxid]
      cases i with
      | zero => left; rfl
      | succ j =>
        have hj : j < rest.length := by simpa using hi
        rcases ih l hf' hguard j hj with h | h
        · left
          simpa using h
        · right
          simpa using h

theorem toggleLink_of_find_none (links : List Link) (id : Nat)
    (hf : links.find? (fun l => l.id == id) = none) : toggleLink links id = links := by
  rw [toggleLink, hf]

theorem toggleLink_of_find_some (links : List Link) (id : Nat) (l0 : Link)
    (hf : links.find? (fun l => l.id == id) = some l0) :
    toggleLink links id
      = if (l0.isImageLink || l0.isCtaLink) = true then links else flipKeepFirst id links := by
  rw [toggleLink, hf]

/-- Claim C10: toggle is a no-op for protected or absent ids, and can flip
only the keep flag of a non-image, non-CTA Link: when no Link has the id the
inventory is unchanged; when the looked-up Link is an image or CTA link the
inventory is unchanged; and in general every position either is left exactly
as it was or holds a non-image non-CTA Link with the matching id whose keep
flag alone has been negated. -/
theorem C10_toggle_frame (links : List Link) (id : Nat) :
    ((∀ l ∈ links, ¬ l.id = id) → toggleLink links id = links)
    ∧ (∀ l0, links.find? (fun l => l.id == id) = some l0 →
        l0.isImageLink = true ∨ l0.isCtaLink = true → toggleLink links id = links)
    ∧ (toggleLink links id).length = links.length
    ∧ ∀ i, i < links.length →
        (toggleLink links id).getD i blankLink = links.getD i blankLink
          ∨ ((links.getD i blankLink).id = id
              ∧ (links.getD i blankLink).isImageLink = false
              ∧ (links.getD i blankLink).isCtaLink = false
              ∧ (toggleLink links id).getD i blankLink
                = setKeep (!(links.getD i blankLink).keep) (links.getD i blankLink)) := by
  refine ⟨?_, ?_, ?_, ?_⟩
  · intro hno
    refine toggleLink_of_find_none links id ?_
    rw [List.find?_eq_none]
    intro x hx
    simp [hno x hx]
  · intro l0 hf himg
    rw [toggleLink_of_find_some links id l0 hf]
    have hor : (l0.isImageLink || l0.isCtaLink) = true := by
      rcases himg with h | h <;> simp [h]
    rw [if_pos hor]
  · rcases hf : links.find? (fun l => l.id == id) with _ | l0
    · rw [toggleLink_of_find_none links id hf]
    · rw [toggleLink_of_find_some links id l0 hf]
      by_cases hg : (l0.isImageLink || l0.isCtaLink) = true
      · rw [if_pos hg]
      · rw [if_neg hg]
        exact flipKeepFirst_length id links
  · intro i hi
    rcases hf : links.find? (fun l => l.id == id) with _ | l0
    · rw [toggleLink_of_find_none links id hf]
      left
      rfl
    · rw [toggleLink_of_find_some links id l0 hf]
      by_cases hg : (l0.isImageLink || l0.isCtaLink) = true
      · rw [if_pos hg]
        left
        rfl
      · rw [if_neg hg]
        have hg' : (l0.isImageLink || l0.isCtaLink) = false := by
          revert hg
          cases l0.isImageLink || l0.isCtaLink <;> simp
        exact flipKeepFirst_getD id links l0 hf hg' i hi

theorem scanAnchors_cons_none (parse : Str → Option UrlParts) (domain : Str) (v : AView)
    (vs : List AView) (rawIndex : Nat) (ls : List Link) (ws : List Warning)
    (gs : List LinkGroup) (hn : normalizeUrl parse (hrefOfView v) = none) :
    scanAnchors parse domain (v :: vs) rawIndex ls ws gs
      = scanAnchors parse domain vs (rawIndex + 1) ls
          (if !(hrefOfView v).isEmpty && !(hrefOfView v == ['#'])
            then ws ++ [brokenWarningOf v] else ws) gs := by
  rw [scanAnchors, hn]

theorem scanAnchors_cons_some (parse : Str → Option UrlParts) (domain : Str) (v : AView)
    (vs : List AView) (rawIndex : Nat) (ls : List Link) (ws : List Warning)
    (gs : List LinkGroup) (nrm : Str) (hn : normalizeUrl parse (hrefOfView v) = some nrm) :
    scanAnchors parse domain (v :: vs) rawIndex ls ws gs
      = scanAnchors parse domain vs (rawIndex + 1)
          (ls ++ [mkScanLink parse domain v rawIndex ls.length nrm]) ws
          (upsertGroup nrm (hrefOfView v) (mkScanLink parse domain v rawIndex ls.length nrm)
            (isImageLink v.children) (ctaOfView v) v.inHeading gs) := by
  rw [scanAnchors, hn]

theorem scanAnchors_links_valid (parse : Str → Option UrlParts) (domain : Str) :
    ∀ (vs : List AView) (rawIndex : Nat) (ls : List Link) (ws : List Warning)
      (gs : List LinkGroup) (l : Link),
      l ∈ (scanAnchors parse domain vs rawIndex ls ws gs).1 →
      l ∈ ls ∨ (normalizeUrl parse l.href).isSome = true := by
  intro vs
  induction vs with
  | nil =>
    intro rawIndex ls ws gs l hl
    exact Or.inl hl
  | cons v vt ih =>
    intro rawIndex ls ws gs l hl
    rcases hn : normalizeUrl parse (hrefOfView v) with _ | nrm
    · rw [scanAnchors_cons_none parse domain v vt rawIndex ls ws gs hn] at hl
      exact ih _ _ _ _ l hl
    · rw [scanAnchors_cons_some parse domain v vt rawIndex ls ws gs nrm hn] at hl
      rcases ih _ _ _ _ l hl with hmem | hvalid
      · rw [List.mem_append] at hmem
        rcases hmem with hmem | hmem
        · exact Or.inl hmem
        · right
          rw [List.mem_singleton] at hmem
          subst hmem
          rw [show (mkScanLink parse domain v rawIndex ls.length nrm).href = hrefOfView v
            from rfl]
          rw [hn]
          rfl
      · exact Or.inr hvalid

theorem scanAnchors_broken_count (parse : Str → Option UrlParts) (domain : Str) :
    ∀ (vs : List AView) (rawIndex : Nat) (ls : List Link) (ws : List Warning)
      (gs : List LinkGroup),
      ((scanAnchors parse domain vs rawIndex ls ws gs).2.1.filter
          fun w => w.type == brokenType).length
        = (ws.filter fun w => w.type == brokenType).length
            + (vs.filter (invalidNonTrivial parse)).length := by
  intro vs
  induction vs with
  | nil =>
    intro rawIndex ls ws gs
    rw [scanAnchors]
    simp
  | cons v vt ih =>
    intro rawIndex ls ws gs
    rcases hn : normalizeUrl parse (hrefOfView v) with _ | nrm
    · rw [scanAnchors_cons_none parse domain v vt rawIndex ls ws gs hn, ih]
      have hinv : invalidNonTrivial parse v
          = (!(hrefOfView v).isEmpty && !(hrefOfView v == ['#'])) := by
        rw [invalidNonTrivial]
        rw [show (getAttr v.attrs hrefAttr).getD [] = hrefOfView v from rfl]
        rw [hn]
        rfl
      by_cases hpush : (!(hrefOfView v).isEmpty && !(hrefOfView v == ['#'])) = true
      · rw [if_pos hpush, List.filter_cons, hinv, hpush]
        have hb : ((brokenWarningOf v).type == brokenType) = true := by
          rw [show (brokenWarningOf v).type = brokenType from rfl]
          simp
        rw [List.filter_append]
        simp [List.filter_cons, hb]
        omega
      · have hpush' : (!(hrefOfView v).isEmpty && !(hrefOfView v == ['#'])) = false := by
          revert hpush
          cases !(hrefOfView v).isEmpty && !(hrefOfView v == ['#']) <;> simp
        rw [if_neg (by simp [hpush']), List.filter_cons, hinv, hpush']
        simp
    · rw [scanAnchors_cons_some parse domain v vt rawIndex ls ws gs nrm hn, ih]
      have hinv : invalidNonTrivial parse v = false := by
        rw [invalidNonTrivial]
        rw [show (getAttr v.attrs hrefAttr).getD [] = hrefOfView v from rfl]
        rw [hn]
        rfl
      rw [List.filter_cons, hinv]
      simp

theorem scanAnchors_no_other_warning (parse : Str → Option UrlParts) (domain : Str)
    (want : Str) (hw : (brokenType == want) = false) :
    ∀ (vs : List AView) (rawIndex : Nat) (ls : List Link) (ws : List Warning)
      (gs : List LinkGroup),
      (scanAnchors parse domain vs rawIndex ls ws gs).2.1.filter (fun w => w.type == want)
        = ws.filter fun w => w.type == want := by
  intro vs
  induction vs with
  | nil =>
    intro rawIndex ls ws gs
    rfl
  | cons v vt ih =>
    intro rawIndex ls ws gs
    rcases hn : normalizeUrl parse (hrefOfView v) with _ | nrm
    · rw [scanAnchors_cons_none parse domain v vt rawIndex ls ws gs hn, ih]
      by_cases hpush : (!(hrefOfView v).isEmpty && !(hrefOfView v == ['#'])) = true
      · rw [if_pos hpush, List.filter_append]
        have hb : ((brokenWarningOf v).type == want) = false := by
          rw [show (brokenWarningOf v).type = brokenType from rfl]
          exact hw
        simp [List.filter_cons, hb]
      · rw [if_neg hpush]
    · rw [scanAnchors_cons_some parse domain v vt rawIndex ls ws gs nrm hn, ih]

theorem groupWarnings_filter (g : LinkGroup) (want : Str)
    (h1 : (imageOnlyType == want) = false) (h2 : (headingType == want) = false) :
    (groupWarnings g).filter (fun w => w.type == want) = [] := by
  rw [groupWarnings, List.filter_append]
  have hA : (if g.textCount = 0 ∧ g.ctaCount = 0 ∧ 0 < g.imageCount
      then [(⟨imageOnlyType, imageOnlyMessage g.normalizedHref g.imageCount⟩ : Warning)]
      else []).filter (fun w => w.type == want) = [] := by
    split
    · simp [List.filter_cons, h1]
    · rfl
  have hB : (if 0 < g.inHeadingCount
      then [(⟨headingType, headingMessage g.normalizedHref g.inHeadingCount⟩ : Warning)]
      else []).filter (fun w => w.type == want) = [] := by
    split
    · simp [List.filter_cons, h2]
    · rfl
  rw [hA, hB]
  rfl

theorem flatMap_groupWarnings_filter (gs : List LinkGroup) (want : Str)
    (h1 : (imageOnlyType == want) = false) (h2 : (headingType == want) = false) :
    (gs.flatMap groupWarnings).filter (fun w => w.type == want) = [] := by
  induction gs with
  | nil => rfl
  | cons g gt ih =>
    rw [List.flatMap_cons, List.filter_append, groupWarnings_filter g want h1 h2, ih]
    rfl

theorem densityWarnings_filter_other (doc : List Node) (want : Str)
    (h : (densityType == want) = false) :
    (densityWarnings doc).filter (fun w => w.type == want) = [] := by
  rw [densityWarnings]
  induction paraNodesL doc with
  | nil => rfl
  | cons p pt ih =>
    rw [List.filterMap_cons]
    rcases hd : densityWarningOf p with _ | w
    · exact ih
    · have ht : w.type = densityType := by
        rw [densityWarningOf] at hd
        split at hd
        · simp at hd
          rw [← hd]
        · simp at hd
      rw [List.filter_cons, ht, h]
      simpa using ih

theorem densityWarnings_filter_self (doc : List Node) :
    (densityWarnings doc).filter (fun w => w.type == densityType) = densityWarnings doc := by
  rw [densityWarnings]
  induction paraNodesL doc with
  | nil => rfl
  | cons p pt ih =>
    rw [List.filterMap_cons]
    rcases hd : densityWarningOf p with _ | w
    · exact ih
    · have ht : w.type = densityType := by
        rw [densityWarningOf] at hd
        split at hd
        · simp at hd
          rw [← hd]
        · simp at hd
      rw [List.filter_cons, ht]
      simp only [beq_self_eq_true, if_true]
      rw [ih]

theorem densityWarnings_length (doc : List Node) :
    (densityWarnings doc).length
      = ((paraNodesL doc).filter fun p => decide (5 ≤ countAnchorsHref p)).length := by
  rw [densityWarnings]
  induction paraNodesL doc with
  | nil => rfl
  | cons p pt ih =>
    rw [List.filterMap_cons, List.filter_cons, densityWarningOf]
    by_cases h5 : 5 ≤ countAnchorsHref p
    · rw [if_pos h5]
      have hd : decide (5 ≤ countAnchorsHref p) = true := by simp [h5]
      rw [hd, if_pos rfl]
      simpa using ih
    · rw [if_neg h5]
      have hd : decide (5 ≤ countAnchorsHref p) = false := by simp [h5]
      rw [hd, if_neg (by simp)]
      exact ih

theorem analyzeHtml_warnings (parse : Str → Option UrlParts) (domain : Str)
    (doc : List Node) :
    (analyzeHtml parse domain doc).warnings
      = (scanAnchors parse domain (anchorViews doc) 0 [] [] []).2.1
          ++ (scanAnchors parse domain (anchorViews doc) 0 [] [] []).2.2.flatMap groupWarnings
          ++ densityWarnings doc := rfl

theorem analyzeHtml_links (parse : Str → Option UrlParts) (domain : Str) (doc : List Node) :
    (analyzeHtml parse domain doc).links
      = (scanAnchors parse domain (anchorViews doc) 0 [] [] []).1 := rfl

theorem normalizeUrl_jsVoid (parse : Str → Option UrlParts) :
    normalizeUrl parse jsVoidHref = none := by
  rw [normalizeUrl]
  rw [if_neg (by decide : ¬ jsVoidHref.isEmpty = true)]
  simp only []
  rw [if_pos (by decide : nonNavigational (trimStr jsVoidHref) = true)]

theorem filter_length_mono {α : Type} (p q : α → Bool) (l : List α)
    (h : ∀ a ∈ l, p a = true → q a = true) :
    (l.filter p).length ≤ (l.filter q).length := by
  induction l with
  | nil => exact Nat.le_refl 0
  | cons a t ih =>
    have ih' := ih fun x hx => h x (List.mem_cons.mpr (Or.inr hx))
    rw [List.filter_cons, List.filter_cons]
    by_cases hp : p a = true
    · rw [hp, h a (List.mem_cons_self a t) hp]
      simpa using ih'
    · have hp' : p a = false := by
        revert hp
        cases p a <;> simp
      rw [hp']
      by_cases hq : q a = true
      · rw [hq]
        simp only [if_pos rfl, Bool.false_eq_true, if_false]
        calc (t.filter p).length ≤ (t.filter q).length := ih'
          _ ≤ (a :: t.filter q).length := by simp
      · have hq' : q a = false := by
          revert hq
          cases q a <;> simp
        rw [hq']
        simpa using ih'

/-- Claim C5 (counterexample): an anchor with href="javascript:void(0)" is
excluded from the inventory but analysis does emit a warning for it — a
broken-link warning — contradicting the claim that no warning is emitted. -/
theorem C5_counterexample :
    (analyzeHtml urlParse [] c5Doc).links.length = 0
      ∧ (analyzeHtml urlParse [] c5Doc).warnings.length = 1
      ∧ ((analyzeHtml urlParse [] c5Doc).warnings.getD 0 ⟨[], []⟩).type = brokenType := by
  decide

/-- Claim C5 (amended): for every document, parser behaviour and domain, an
anchor with href="javascript:void(0)" is excluded from the Link inventory and
from the stats counters (every Link's href normalizes successfully, and
totalLinks counts exactly the Links), but analysis emits a broken warning for
it: the broken warnings are exactly the anchors whose href fails to
normalize while being nonempty and not '#', which includes every
javascript:void(0) anchor. -/
theorem C5_javascript_href (parse : Str → Option UrlParts) (domain : Str) (doc : List Node) :
    (∀ l ∈ (analyzeHtml parse domain doc).links, ¬ l.href = jsVoidHref)
    ∧ (analyzeHtml parse domain doc).stats.totalLinks
        = (analyzeHtml parse domain doc).links.length
    ∧ ((analyzeHtml parse domain doc).warnings.filter fun w => w.type == brokenType).length
        = ((anchorViews doc).filter (invalidNonTrivial parse)).length
    ∧ ((anchorViews doc).filter fun v => hrefOfView v == jsVoidHref).length
        ≤ ((analyzeHtml parse domain doc).warnings.filter
            fun w => w.type == brokenType).length := by
  have hbrk : ((analyzeHtml parse domain doc).warnings.filter
      fun w => w.type == brokenType).length
        = ((anchorViews doc).filter (invalidNonTrivial parse)).length := by
    rw [analyzeHtml_warnings, List.filter_append, List.filter_append]
    rw [flatMap_groupWarnings_filter _ brokenType (by decide) (by decide)]
    rw [densityWarnings_filter_other doc brokenType (by decide)]
    simp only [List.append_nil]
    rw [scanAnchors_broken_count parse domain (anchorViews doc) 0 [] [] []]
    simp
  refine ⟨?_, rfl, hbrk, ?_⟩
  · intro l hl hhref
    rw [analyzeHtml_links] at hl
    rcases scanAnchors_links_valid parse domain (anchorViews doc) 0 [] [] [] l hl with
      hmem | hvalid
    · simp at hmem
    · rw [hhref, normalizeUrl_jsVoid] at hvalid
      simp at hvalid
  · rw [hbrk]
    refine filter_length_mono _ _ _ ?_
    intro v _ hv
    have hveq : hrefOfView v = jsVoidHref := by simpa using hv
    rw [invalidNonTrivial]
    rw [show (getAttr v.attrs hrefAttr).getD [] = hrefOfView v from rfl, hveq]
    rw [normalizeUrl_jsVoid]
    decide

/-- Claim C6 (counterexample): a paragraph holding five anchors whose hrefs
are all the bare '#' (none of which normalizes successfully) still triggers a
density warning, so the warning is not conditioned on valid normalization. -/
theorem C6_counterexample :
    ((analyzeHtml urlParse [] c6Doc).warnings.filter fun w => w.type == densityType).length = 1
      ∧ ((anchorViews c6Doc).filter fun v =>
          (normalizeUrl urlParse (hrefOfView v)).isSome).length = 0 := by
  decide

/-- Claim C6 (amended): analysis emits exactly one density warning per
paragraph containing 5 or more anchors bearing an href attribute — regardless
of whether those hrefs normalize successfully — and no density warnings
otherwise: the number of density warnings equals the number of such
paragraphs. -/
theorem C6_density_warning (parse : Str → Option UrlParts) (domain : Str) (doc : List Node) :
    ((analyzeHtml parse domain doc).warnings.filter fun w => w.type == densityType).length
      = ((paraNodesL doc).filter fun p => decide (5 ≤ countAnchorsHref p)).length := by
  rw [analyzeHtml_warnings, List.filter_append, List.filter_append]
  rw [flatMap_groupWarnings_filter _ densityType (by decide) (by decide)]
  rw [scanAnchors_no_other_warning parse domain densityType (by decide)]
  rw [densityWarnings_filter_self doc]
  rw [show (List.filter (fun w => w.type == densityType) [] : List Warning) = [] from rfl]
  simp only [List.nil_append]
  rw [densityWarnings_length doc]

theorem node_ind (P : Node → Prop) (ht : ∀ s, P (.text s))
    (he : ∀ t a cs, (∀ c ∈ cs, P c) → P (.elem t a cs)) : ∀ n, P n := by
  intro n
  induction n using Node.rec (motive_2 := fun l => ∀ c ∈ l, P c) with
  | text s => exact ht s
  | elem t a cs ih => exact he t a cs ih
  | nil =>
    rename_i c hc
    exact absurd hc (List.not_mem_nil c)
  | cons c cs ihc ihcs =>
    rename_i d hd
    rcases List.mem_cons.mp hd with hd' | hd'
    · exact hd' ▸ ihc
    · exact ihcs d hd'

theorem getAttr_eq_map (attrs : List (Str × Str)) (name : Str) :
    getAttr attrs name = (List.find? (fun q => q.1 == name) attrs).map Prod.snd := by
  rw [getAttr]
  cases List.find? (fun q => q.1 == name) attrs <;> rfl

theorem getAttr_removeAttr (attrs : List (Str × Str)) (name : Str) :
    getAttr (removeAttr attrs name) name = none := by
  rw [getAttr_eq_map]
  have hnone : List.find? (fun q => q.1 == name) (removeAttr attrs name) = none := by
    rw [List.find?_eq_none]
    intro x hx
    have hmem := List.mem_filter.mp hx
    simpa using hmem.2
  rw [hnone]
  rfl

theorem stripTargetSelf_not_anchor (tag : Str) (attrs : List (Str × Str)) :
    isTargetSelfAnchor tag (removeAttr attrs targetAttr) = false := by
  rw [isTargetSelfAnchor, getAttr_removeAttr]
  simp

theorem stripTargetSelfL_count_zero (cs : List Node)
    (h : ∀ c ∈ cs, countTargetSelf (stripTargetSelf c).1 = 0) :
    countTargetSelfL (stripTargetSelfL cs).1 = 0 := by
  induction cs with
  | nil => rfl
  | cons c ct ih =>
    rw [stripTargetSelfL]
    show countTargetSelf (stripTargetSelf c).1
        + countTargetSelfL (stripTargetSelfL ct).1 = 0
    rw [h c (List.mem_cons_self c ct), ih fun d hd => h d (List.mem_cons.mpr (Or.inr hd))]

theorem stripTargetSelf_count_zero : ∀ n : Node, countTargetSelf (stripTargetSelf n).1 = 0 := by
  refine node_ind _ (fun s => rfl) ?_
  intro tag attrs cs ih
  rw [stripTargetSelf]
  by_cases hts : isTargetSelfAnchor tag attrs = true
  · rw [if_pos hts]
    show (if isTargetSelfAnchor tag (removeAttr attrs targetAttr) then 1 else 0)
        + countTargetSelfL (stripTargetSelfL cs).1 = 0
    rw [stripTargetSelf_not_anchor]
    simp only [Bool.false_eq_true, if_false, Nat.zero_add]
    exact stripTargetSelfL_count_zero cs ih
  · rw [if_neg hts]
    show (if isTargetSelfAnchor tag attrs then 1 else 0)
        + countTargetSelfL (stripTargetSelfL cs).1 = 0
    rw [if_neg hts]
    simpa using stripTargetSelfL_count_zero cs ih

theorem stripTargetSelfL_count_zero' (cs : List Node) :
    countTargetSelfL (stripTargetSelfL cs).1 = 0 :=
  stripTargetSelfL_count_zero cs fun c _ => stripTargetSelf_count_zero c

theorem stripTargetSelfL_snd (cs : List Node)
    (h : ∀ c ∈ cs, (stripTargetSelf c).2 = countTargetSelf c) :
    (stripTargetSelfL cs).2 = countTargetSelfL cs := by
  induction cs with
  | nil => rfl
  | cons c ct ih =>
    rw [stripTargetSelfL]
    show (stripTargetSelf c).2 + (stripTargetSelfL ct).2 = countTargetSelfL (c :: ct)
    rw [h c (List.mem_cons_self c ct), ih fun d hd => h d (List.mem_cons.mpr (Or.inr hd))]
    rfl

theorem stripTargetSelf_snd : ∀ n : Node, (stripTargetSelf n).2 = countTargetSelf n := by
  refine node_ind _ (fun s => rfl) ?_
  intro tag attrs cs ih
  rw [stripTargetSelf]
  by_cases hts : isTargetSelfAnchor tag attrs = true
  · rw [if_pos hts]
    show (stripTargetSelfL cs).2 + 1 = countTargetSelf (.elem tag attrs cs)
    rw [stripTargetSelfL_snd cs ih]
    rw [show countTargetSelf (.elem tag attrs cs)
        = (if isTargetSelfAnchor tag attrs then 1 else 0) + countTargetSelfL cs from rfl]
    rw [if_pos hts]
    omega
  · rw [if_neg hts]
    show (stripTargetSelfL cs).2 = countTargetSelf (.elem tag attrs cs)
    rw [stripTargetSelfL_snd cs ih]
    rw [show countTargetSelf (.elem tag attrs cs)
        = (if isTargetSelfAnchor tag attrs then 1 else 0) + countTargetSelfL cs from rfl]
    rw [if_neg hts]
    omega

theorem stripTargetSelfL_snd' (cs : List Node) :
    (stripTargetSelfL cs).2 = countTargetSelfL cs :=
  stripTargetSelfL_snd cs fun c _ => stripTargetSelf_snd c

theorem markAttrsStep_keepall (parse : Str → Option UrlParts) (links : List Link)
    (tag : Str) (attrs : List (Str × Str)) (i : Nat) (h : ∀ l ∈ links, l.keep = true) :
    (markAttrsStep parse links tag attrs i).1 = attrs := by
  rw [markAttrsStep]
  split
  · split
    · split
      · rename_i hlt
        have hk : (links.getD i blankLink).keep = true := by
          rw [List.getD_eq_getElem links blankLink hlt]
          exact h _ (links.getElem_mem hlt)
        rw [if_pos hk]
      · rfl
    · rfl
  · rfl

theorem markWalkL_keepall (parse : Str → Option UrlParts) (links : List Link)
    (cs : List Node) (h : ∀ c ∈ cs, ∀ i, (markWalk parse links c i).1 = c) :
    ∀ i, (markWalkL parse links cs i).1 = cs := by
  induction cs with
  | nil => intro i; rfl
  | cons c ct ih =>
    intro i
    rw [markWalkL]
    show (markWalk parse links c i).1
        :: (markWalkL parse links ct (markWalk parse links c i).2).1 = c :: ct
    rw [h c (List.mem_cons_self c ct), ih (fun d hd => h d (List.mem_cons.mpr (Or.inr hd)))]

theorem markWalk_keepall (parse : Str → Option UrlParts) (links : List Link)
    (hkeep : ∀ l ∈ links, l.keep = true) :
    ∀ n : Node, ∀ i, (markWalk parse links n i).1 = n := by
  refine node_ind _ (fun s i => rfl) ?_
  intro tag attrs cs ih i
  rw [markWalk]
  show Node.elem tag (markAttrsStep parse links tag attrs i).1
      (markWalkL parse links cs (markAttrsStep parse links tag attrs i).2).1
    = Node.elem tag attrs cs
  rw [markAttrsStep_keepall parse links tag attrs i hkeep]
  rw [markWalkL_keepall parse links cs ih]

theorem unwrapMarkedL_nomark (cs : List Node)
    (h : ∀ c ∈ cs, hasRemoveMark c = false → unwrapMarked c = [c])
    (hm : hasRemoveMarkL cs = false) : unwrapMarkedL cs = cs := by
  induction cs with
  | nil => rfl
  | cons c ct ih =>
    rw [hasRemoveMarkL, Bool.or_eq_false_iff] at hm
    rw [unwrapMarkedL, h c (List.mem_cons_self c ct) hm.1,
      ih (fun d hd => h d (List.mem_cons.mpr (Or.inr hd))) hm.2]
    rfl

theorem unwrapMarked_nomark :
    ∀ n : Node, hasRemoveMark n = false → unwrapMarked n = [n] := by
  refine node_ind _ (fun s _ => rfl) ?_
  intro tag attrs cs ih hm
  rw [hasRemoveMark, Bool.or_eq_false_iff] at hm
  rw [unwrapMarked]
  have hso : ¬ (getAttr attrs removeMarkAttr).isSome = true := by
    rw [hm.1]
    simp
  rw [if_neg hso]
  rw [unwrapMarkedL_nomark cs (fun c hc => ih c hc) hm.2]

/-- Claim C8: target="_self" cleanup.  For every input document and keep
assignment, the cleaned tree produced by generateCleanHtml contains no anchor
carrying target="_self" (the selector count over the output is zero); and the
removal count is recorded for the changes report even when zero links were
unwrapped: when every Link keeps (and the input bears no internal removal
marks), the returned count equals the number of target="_self" anchors of the
original document. -/
theorem C8_target_self_stripped (parse : Str → Option UrlParts) (links : List Link)
    (doc : List Node) :
    countTargetSelfL (generateCleanHtml parse links doc).1 = 0
    ∧ ((∀ l ∈ links, l.keep = true) → hasRemoveMarkL doc = false →
        (generateCleanHtml parse links doc).2 = countTargetSelfL doc) := by
  constructor
  · exact stripTargetSelfL_count_zero' (unwrapMarkedL (markWalkL parse links doc 0).1)
  · intro hkeep hmark
    show (stripTargetSelfL (unwrapMarkedL (markWalkL parse links doc 0).1)).2
        = countTargetSelfL doc
    rw [markWalkL_keepall parse links doc
      (fun c _ => markWalk_keepall parse links hkeep c) 0]
    rw [unwrapMarkedL_nomark doc (fun c _ => unwrapMarked_nomark c) hmark]
    exact stripTargetSelfL_snd' doc
